import Mathlib

/-!
# Bounded LRU key-value store

A shallow embedding of `include/key_value_store.h` and `src/key_value_store.cpp`.

* `std::string` is a Lean `String` (a finite sequence of characters).
* `std::list<std::string>` is a list of nodes; a node carries an identity (the thing a
  `std::list` iterator holds) and the key stored in it.  The head of the Lean list is
  `begin()`, the last element is `back()`.
* `std::unordered_map<std::string, std::pair<std::string, iterator>>` is an association
  list with pairwise distinct keys (`AList`).  Its iteration order is unspecified in C++;
  the order of the association list stands for it and no theorem depends on it.
* `std::mutex storeMutex` is a flag telling whether the mutex is held.  There is one client
  thread.  Locking a `std::mutex` that the calling thread already holds has no defined
  behaviour in C++ and blocks for ever on the usual implementations: the call never returns
  a result, which the model records as `deadlock`.
* A call either returns, never returns (`deadlock`), or has no defined behaviour
  (`undefined`: erasing through an iterator that designates no node, `back()` of an empty
  list).
* `int maxSize` is an `Int`; theorems about a capacity state the range of `int` they need.
* Files: `saveToDisk` is told whether its file opens and yields the text it writes;
  `loadFromDisk` is given the content of its file, or nothing when the file does not open.
  Writes to an open file succeed.
-/

namespace KVStore

/-- A node of `usageOrder`: its identity and the key it stores. -/
abbrev Node := Nat × String

/-- The mapped type of `store`: the value and the iterator into `usageOrder`. -/
abbrev Entry := String × Nat

/-- Identity of a newly allocated node: different from every node now in the list. -/
def freshNode (l : List Node) : Nat :=
  (l.map Prod.fst).foldr max 0 + 1

/-- `std::list::push_front(key)`; the new node is `begin()`. -/
def pushFront (l : List Node) (key : String) : List Node :=
  (freshNode l, key) :: l

/-- `std::list::erase(it)`: defined only when `it` designates a node of the list. -/
def listErase (l : List Node) (it : Nat) : Option (List Node) :=
  if l.any (fun n => n.1 == it) then some (l.filter (fun n => n.1 != it)) else none

/-- `static_cast<size_t>(maxSize)` for `int maxSize` and a 64-bit `size_t`. -/
def toSizeT (n : Int) : Nat :=
  (n % 2 ^ 64).toNat

/-- `std::string::substr(pos, n)` for `pos` within the string. -/
def substr (s : String) (pos n : Nat) : String :=
  ⟨(s.data.drop pos).take n⟩

end KVStore

open KVStore

/-- The private data members of `class KeyValueStore`. -/
structure KeyValueStore where
  maxSize : Int
  usageOrder : List Node
  store : AList (fun _ : String => Entry)
  storeMutex : Bool
  deriving DecidableEq

/-- What a call does: return `r` leaving the object in state `s`, block for ever, or
have no defined behaviour. -/
inductive Outcome (α : Type) where
  | ret (r : α) (s : KeyValueStore)
  | deadlock
  | undefined
  deriving DecidableEq

/-- An element of the `operations` vector of `batchProcess`:
`(operation, (key, value))`. -/
abbrev Operation := String × (String × String)

namespace KeyValueStore

/-- `KeyValueStore::KeyValueStore(int size)`. -/
def new (size : Int) : KeyValueStore :=
  { maxSize := size, usageOrder := [], store := ∅, storeMutex := false }

/-- `std::lock_guard<std::mutex> lock(storeMutex)` around a method body: acquiring the mutex
while it is held never returns; the guard releases the mutex on every return path. -/
def lockGuard {α : Type} (s : KeyValueStore) (body : KeyValueStore → Outcome α) :
    Outcome α :=
  if s.storeMutex then Outcome.deadlock
  else
    match body { s with storeMutex := true } with
    | Outcome.ret r s' => Outcome.ret r { s' with storeMutex := false }
    | Outcome.deadlock => Outcome.deadlock
    | Outcome.undefined => Outcome.undefined

/-- `usageOrder.push_front(key); store[key] = std::make_pair(value, usageOrder.begin());` -/
def insertFront (s : KeyValueStore) (key value : String) : KeyValueStore :=
  { s with
    usageOrder := pushFront s.usageOrder key
    store := s.store.insert key (value, freshNode s.usageOrder) }

/-- `KeyValueStore::updateLRU`.  `store[key]` on an absent key would create an entry whose
iterator designates nothing, and erasing through it is undefined. -/
def updateLRU (s : KeyValueStore) (key : String) : Outcome Unit :=
  match s.store.lookup key with
  | none => Outcome.undefined
  | some (v, it) =>
    match listErase s.usageOrder it with
    | none => Outcome.undefined
    | some l =>
      Outcome.ret ()
        { s with
          usageOrder := pushFront l key
          store := s.store.insert key (v, freshNode l) }

/-- `KeyValueStore::evictLRU`. -/
def evictLRU (s : KeyValueStore) : KeyValueStore :=
  match s.usageOrder.getLast? with
  | none => s
  | some lru => { s with store := s.store.erase lru.2, usageOrder := s.usageOrder.dropLast }

/-- `size_t KeyValueStore::size() const` (takes no lock). -/
def size (s : KeyValueStore) : Nat :=
  s.store.entries.length

/-- Body of `KeyValueStore::put` under the lock. -/
def putBody (key value : String) (s : KeyValueStore) : Outcome Unit :=
  match s.store.lookup key with
  | some (_, it) => updateLRU { s with store := s.store.insert key (value, it) } key
  | none =>
    let s1 := if toSizeT s.maxSize ≤ s.store.entries.length then evictLRU s else s
    Outcome.ret () (insertFront s1 key value)

/-- `KeyValueStore::put`. -/
def put (s : KeyValueStore) (key value : String) : Outcome Unit :=
  lockGuard s (putBody key value)

/-- Body of `KeyValueStore::get` under the lock.  `updateLRU` rewrites only the iterator of
the entry, so `it->second.first` read afterwards is the value found by `find`. -/
def getBody (key : String) (s : KeyValueStore) : Outcome String :=
  match s.store.lookup key with
  | some (v, _) =>
    match updateLRU s key with
    | Outcome.ret _ s' => Outcome.ret v s'
    | Outcome.deadlock => Outcome.deadlock
    | Outcome.undefined => Outcome.undefined
  | none => Outcome.ret "" s

/-- `KeyValueStore::get`. -/
def get (s : KeyValueStore) (key : String) : Outcome String :=
  lockGuard s (getBody key)

/-- `KeyValueStore::exists`. -/
def «exists» (s : KeyValueStore) (key : String) : Outcome Bool :=
  lockGuard s (fun t => Outcome.ret (t.store.lookup key).isSome t)

/-- Body of `KeyValueStore::del` under the lock. -/
def delBody (key : String) (s : KeyValueStore) : Outcome Unit :=
  match s.store.lookup key with
  | some (_, it) =>
    match listErase s.usageOrder it with
    | none => Outcome.undefined
    | some l => Outcome.ret () { s with usageOrder := l, store := s.store.erase key }
  | none => Outcome.ret () s

/-- `KeyValueStore::del`. -/
def del (s : KeyValueStore) (key : String) : Outcome Unit :=
  lockGuard s (delBody key)

/-- `KeyValueStore::getKeysWithPrefix`. -/
def getKeysWithPrefix (s : KeyValueStore) (pfx : String) : Outcome (List String) :=
  lockGuard s (fun t =>
    Outcome.ret
      ((t.store.entries.filter (fun e => substr e.1 0 pfx.length == pfx)).map Sigma.fst) t)

/-- `KeyValueStore::clear`. -/
def clear (s : KeyValueStore) : Outcome Unit :=
  lockGuard s (fun t => Outcome.ret () { t with store := ∅, usageOrder := [] })

/-- First loop of `KeyValueStore::batchProcess`: `exists(key)` is evaluated only for an
operation named "get" (short-circuit `&&`), on the object whose mutex the batch holds. -/
def batchValidate : List Operation → KeyValueStore → Outcome Bool
  | [], s => Outcome.ret true s
  | op :: ops, s =>
    if op.1 = "get" then
      match s.exists op.2.1 with
      | Outcome.ret b s' => if !b then Outcome.ret false s' else batchValidate ops s'
      | Outcome.deadlock => Outcome.deadlock
      | Outcome.undefined => Outcome.undefined
    else batchValidate ops s

/-- One iteration of the second loop of `KeyValueStore::batchProcess`. -/
def batchApplyOp (op : Operation) (s : KeyValueStore) : Outcome Unit :=
  if op.1 = "put" then
    match s.store.lookup op.2.1 with
    | some (_, it) =>
      match listErase s.usageOrder it with
      | none => Outcome.undefined
      | some l =>
        Outcome.ret ()
          { s with
            usageOrder := pushFront l op.2.1
            store := s.store.insert op.2.1 (op.2.2, freshNode l) }
    | none =>
      if toSizeT s.maxSize ≤ s.store.entries.length then
        match s.usageOrder.getLast? with
        | none => Outcome.undefined
        | some lru =>
          Outcome.ret ()
            (insertFront
              { s with store := s.store.erase lru.2, usageOrder := s.usageOrder.dropLast }
              op.2.1 op.2.2)
      else Outcome.ret () (insertFront s op.2.1 op.2.2)
  else if op.1 = "delete" then
    match s.store.lookup op.2.1 with
    | some (_, it) =>
      match listErase s.usageOrder it with
      | none => Outcome.undefined
      | some l => Outcome.ret () { s with usageOrder := l, store := s.store.erase op.2.1 }
    | none => Outcome.ret () s
  else Outcome.ret () s

/-- Second loop of `KeyValueStore::batchProcess`. -/
def batchApply : List Operation → KeyValueStore → Outcome Unit
  | [], s => Outcome.ret () s
  | op :: ops, s =>
    match batchApplyOp op s with
    | Outcome.ret _ s' => batchApply ops s'
    | Outcome.deadlock => Outcome.deadlock
    | Outcome.undefined => Outcome.undefined

/-- Body of `KeyValueStore::batchProcess` under the lock. -/
def batchProcessBody (operations : List Operation) (s : KeyValueStore) : Outcome Bool :=
  match batchValidate operations s with
  | Outcome.ret true s' =>
    match batchApply operations s' with
    | Outcome.ret _ s'' => Outcome.ret true s''
    | Outcome.deadlock => Outcome.deadlock
    | Outcome.undefined => Outcome.undefined
  | Outcome.ret false s' => Outcome.ret false s'
  | Outcome.deadlock => Outcome.deadlock
  | Outcome.undefined => Outcome.undefined

/-- `KeyValueStore::batchProcess`. -/
def batchProcess (s : KeyValueStore) (operations : List Operation) : Outcome Bool :=
  lockGuard s (batchProcessBody operations)

end KeyValueStore

/-! ## Observations, the invariant and call sequences -/

namespace KeyValueStore

/-- The keys of `usageOrder` from most- to least-recently used. -/
def recency (s : KeyValueStore) : List String :=
  s.usageOrder.map Prod.snd

/-- The value stored for `key`, if `key` is in the index. -/
def value (s : KeyValueStore) (key : String) : Option String :=
  (s.store.lookup key).map Prod.fst

/-- The index/recency invariant: the nodes of `usageOrder` are distinct, no key occurs twice
in `usageOrder`, the index and `usageOrder` hold the same keys, and the iterator stored for
a key designates the node of `usageOrder` that holds this key. -/
def Invariant (s : KeyValueStore) : Prop :=
  (s.usageOrder.map Prod.fst).Nodup ∧
  (s.usageOrder.map Prod.snd).Nodup ∧
  (∀ k ∈ s.store.keys, k ∈ s.usageOrder.map Prod.snd) ∧
  (∀ k ∈ s.usageOrder.map Prod.snd, k ∈ s.store.keys) ∧
  (∀ e ∈ s.store.entries, (e.2.2, e.1) ∈ s.usageOrder)

/-- State in which `key` holds `v` in a new node at the head of `usageOrder`. -/
def promoted (s : KeyValueStore) (key v : String) : KeyValueStore :=
  { s with
    usageOrder := pushFront (s.usageOrder.filter (fun n => n.2 != key)) key
    store := s.store.insert key (v, freshNode (s.usageOrder.filter (fun n => n.2 != key))) }

/-- State in which `key` has neither an entry nor a node. -/
def removed (s : KeyValueStore) (key : String) : KeyValueStore :=
  { s with
    usageOrder := s.usageOrder.filter (fun n => n.2 != key)
    store := s.store.erase key }

/-- The state `put` inserts a new key into: the store itself, or the store without its
least-recently-used entry when `store.size() >= static_cast<size_t>(maxSize)`. -/
def madeRoom (s : KeyValueStore) : KeyValueStore :=
  if toSizeT s.maxSize ≤ s.store.entries.length then s.evictLRU else s

/-- The invariant together with the capacity bound for capacity `n`. -/
def WithinCapacity (n : Int) (s : KeyValueStore) : Prop :=
  s.Invariant ∧ s.maxSize = n ∧ (s.size : Int) ≤ n

end KeyValueStore

/-- A call of a public method by the single client of the store. -/
inductive Call where
  | put (key value : String)
  | get (key : String)
  | «exists» (key : String)
  | del (key : String)
  | clear
  | getKeysWithPrefix (pfx : String)
  | batchProcess (operations : List Operation)
  | size

/-- The state an outcome leaves behind when the call returned. -/
def Outcome.state? {α : Type} : Outcome α → Option KeyValueStore
  | Outcome.ret _ s => some s
  | Outcome.deadlock => none
  | Outcome.undefined => none

/-- The state after a call that returns; `none` when the call does not return. -/
def Call.step (c : Call) (s : KeyValueStore) : Option KeyValueStore :=
  match c with
  | Call.put k v => (s.put k v).state?
  | Call.get k => (s.get k).state?
  | Call.exists k => (s.exists k).state?
  | Call.del k => (s.del k).state?
  | Call.clear => s.clear.state?
  | Call.getKeysWithPrefix p => (s.getKeysWithPrefix p).state?
  | Call.batchProcess ops => (s.batchProcess ops).state?
  | Call.size => some s

/-- The state after a sequence of calls made one after the other, each returning. -/
def runCalls : List Call → KeyValueStore → Option KeyValueStore
  | [], s => some s
  | c :: cs, s =>
    match c.step s with
    | some s' => runCalls cs s'
    | none => none

/-- Putting the pairs of `kvs` in list order. -/
def putAll : List (String × String) → KeyValueStore → Option KeyValueStore
  | [], s => some s
  | kv :: kvs, s =>
    match s.put kv.1 kv.2 with
    | Outcome.ret _ s' => putAll kvs s'
    | Outcome.deadlock => none
    | Outcome.undefined => none

/-- The sequential reading of a batch: in list order, the standalone `put` for each "put"
entry and the standalone `del` for each "delete" entry; every other entry is skipped. -/
def applySequentially : List Operation → KeyValueStore → Outcome Unit
  | [], s => Outcome.ret () s
  | op :: ops, s =>
    if op.1 = "put" then
      match s.put op.2.1 op.2.2 with
      | Outcome.ret _ s' => applySequentially ops s'
      | Outcome.deadlock => Outcome.deadlock
      | Outcome.undefined => Outcome.undefined
    else if op.1 = "delete" then
      match s.del op.2.1 with
      | Outcome.ret _ s' => applySequentially ops s'
      | Outcome.deadlock => Outcome.deadlock
      | Outcome.undefined => Outcome.undefined
    else applySequentially ops s

/-- Whether a call is a batch holding an operation named "get": such a batch calls `exists`
while it holds the mutex. -/
def Call.relocks : Call → Bool
  | Call.batchProcess ops => ops.any (fun op => op.1 == "get")
  | _ => false

/-- The pairs put by the eviction demonstration of `main` (`i = 1 .. 7`) into
`KeyValueStore smallStore(5)`. -/
def lruDemo : List (String × String) :=
  [("lru_key_1", "value_1"), ("lru_key_2", "value_2"), ("lru_key_3", "value_3"),
   ("lru_key_4", "value_4"), ("lru_key_5", "value_5"), ("lru_key_6", "value_6"),
   ("lru_key_7", "value_7")]

/-- A store of capacity 2 holding "a" and "b", "b" most recently used. -/
def sampleFull : KeyValueStore :=
  { maxSize := 2
    usageOrder := [(2, "b"), (1, "a")]
    store := (AList.singleton "a" ("1", 1)).insert "b" ("2", 2)
    storeMutex := false }

/-- A store whose only key "k" holds the empty string. -/
def sampleEmptyValue : KeyValueStore :=
  { maxSize := 5
    usageOrder := [(1, "k")]
    store := AList.singleton "k" ("", 1)
    storeMutex := false }

/-- A store whose only key "user1" holds "John Doe". -/
def sampleOneUser : KeyValueStore :=
  { maxSize := 5
    usageOrder := [(1, "user1")]
    store := AList.singleton "user1" ("John Doe", 1)
    storeMutex := false }

/-- The store of `main` after its first three puts. -/
def sampleUsers : KeyValueStore :=
  { maxSize := 100
    usageOrder := [(3, "user3"), (2, "user2"), (1, "user1")]
    store := ((AList.singleton "user1" ("John Doe", 1)).insert "user2"
      ("Jane Smith", 2)).insert "user3" ("Bob Johnson", 3)
    storeMutex := false }

/-- A store holding the keys "user1", "user23" and "admin1". -/
def samplePrefix : KeyValueStore :=
  { maxSize := 100
    usageOrder := [(3, "admin1"), (2, "user23"), (1, "user1")]
    store := ((AList.singleton "user1" ("John Doe", 1)).insert "user23"
      ("Emily Davis", 2)).insert "admin1" ("Root", 3)
    storeMutex := false }

/-- A store of capacity 1 holding "a". -/
def sampleOnlyA : KeyValueStore :=
  { maxSize := 1
    usageOrder := [(1, "a")]
    store := AList.singleton "a" ("1", 1)
    storeMutex := false }

/-- A store of capacity 1 holding "b". -/
def sampleOnlyB : KeyValueStore :=
  { maxSize := 1
    usageOrder := [(1, "b")]
    store := AList.singleton "b" ("2", 1)
    storeMutex := false }

/-- A sequence of calls using every method. -/
def sampleCalls : List Call :=
  [Call.put "a" "1", Call.put "b" "2", Call.put "c" "3", Call.get "b", Call.exists "a",
   Call.batchProcess [("put", ("d", "4")), ("noop", ("x", "y"))],
   Call.getKeysWithPrefix "", Call.size, Call.del "c"]

/-- The state `sampleCalls` leads to from the empty store of capacity 2. -/
def sampleAfterCalls : KeyValueStore :=
  { maxSize := 2
    usageOrder := [(5, "d"), (4, "b")]
    store := (AList.singleton "b" ("2", 4)).insert "d" ("4", 5)
    storeMutex := false }

/-- A sequence of calls with updates, evictions, a batch, a clear and deletions. -/
def sampleCalls3 : List Call :=
  [Call.put "a" "1", Call.put "b" "2", Call.put "a" "3", Call.put "c" "4", Call.get "a",
   Call.batchProcess [("put", ("d", "4")), ("put", ("a", "7")), ("delete", ("c", ""))],
   Call.clear, Call.put "e" "5", Call.put "f" "6", Call.put "g" "7", Call.del "f",
   Call.del "zz"]

/-- The state `sampleCalls3` leads to from the empty store of capacity 3. -/
def sampleAfterCalls3 : KeyValueStore :=
  { maxSize := 3
    usageOrder := [(3, "g"), (1, "e")]
    store := (AList.singleton "e" ("5", 1)).insert "g" ("7", 3)
    storeMutex := false }

/-! ## Persistence -/

/-- A `std::ifstream` being read: the characters not yet extracted, and whether the stream
is still `good()` (no end of file met, no extraction failed).  An extraction from a stream
that is not good extracts nothing. -/
structure IStream where
  rest : List Char
  good : Bool

namespace IStream

/-- `std::isspace` in the "C" locale. -/
def isSpace (c : Char) : Bool :=
  c == ' ' || c == '\t' || c == '\n' || c == '\x0b' || c == '\x0c' || c == '\r'

/-- The decimal digits at the front of the input, accumulated into a number, and the input
after them. -/
def readDigits : List Char → Nat → Nat × List Char
  | [], acc => (acc, [])
  | c :: cs, acc =>
    if c.isDigit then readDigits cs (acc * 10 + (c.toNat - '0'.toNat)) else (acc, c :: cs)

/-- `inFile >> count` for `size_t count` (decimal, leading white space skipped, optional
sign): the value stored in `count`, or `none` when nothing is stored because the input ended
before a field started.  Without a digit `0` is stored and the stream fails; a value above
`2^64 - 1` stores `2^64 - 1` and the stream fails; a minus sign negates modulo `2^64`;
digits running up to the end of the file leave the stream at end of file. -/
def readSizeT (f : IStream) : Option Nat × IStream :=
  if !f.good then (none, f)
  else
    match f.rest.dropWhile isSpace with
    | [] => (none, { rest := [], good := false })
    | c :: cs =>
      let digits := if c == '-' || c == '+' then cs else c :: cs
      match digits with
      | [] => (some 0, { rest := [], good := false })
      | d :: ds =>
        if d.isDigit then
          let r := readDigits (d :: ds) 0
          if 2 ^ 64 ≤ r.1 then (some (2 ^ 64 - 1), { rest := r.2, good := false })
          else
            (some (if c == '-' then (2 ^ 64 - r.1) % 2 ^ 64 else r.1),
              { rest := r.2, good := !r.2.isEmpty })
        else (some 0, { rest := d :: ds, good := false })

/-- `inFile.ignore()`: extracts one character. -/
def ignore (f : IStream) : IStream :=
  if !f.good then f
  else
    match f.rest with
    | [] => { rest := [], good := false }
    | _ :: cs => { rest := cs, good := true }

/-- `std::getline(inFile, str)` into a fresh empty `str`: the characters up to the next
newline, which is extracted and dropped; reaching the end of the file ends the line and
leaves the stream not good. -/
def getline (f : IStream) : String × IStream :=
  if !f.good then ("", f)
  else
    match f.rest.dropWhile (fun c => c != '\n') with
    | [] => (⟨f.rest.takeWhile (fun c => c != '\n')⟩, { rest := [], good := false })
    | _ :: cs => (⟨f.rest.takeWhile (fun c => c != '\n')⟩, { rest := cs, good := true })

end IStream

namespace KeyValueStore

/-- The loop of `saveToDisk` over `usageOrder`: the characters written and the index
afterwards.  `store[key]` on a key the index lacks creates an entry with an empty value and
a value-initialised iterator, written `0`, the identity of no allocated node. -/
def saveEntries : List Node → AList (fun _ : String => Entry) →
    List Char × AList (fun _ : String => Entry)
  | [], st => ([], st)
  | n :: ns, st =>
    match st.lookup n.2 with
    | some (v, _) =>
      let r := saveEntries ns st
      (n.2.data ++ '\n' :: (v.data ++ '\n' :: r.1), r.2)
    | none =>
      let r := saveEntries ns (st.insert n.2 ("", 0))
      (n.2.data ++ '\n' :: '\n' :: r.1, r.2)

/-- Body of `KeyValueStore::saveToDisk` under the lock: `canOpen` tells whether
`outFile.is_open()`; the result is the returned `bool` and the text written to the file
(`none` when the file was not opened).  `operator<<` prints `store.size()` in decimal. -/
def saveToDiskBody (canOpen : Bool) (s : KeyValueStore) : Outcome (Bool × Option String) :=
  if !canOpen then Outcome.ret (false, none) s
  else
    let r := saveEntries s.usageOrder s.store
    Outcome.ret (true, some ⟨Nat.toDigits 10 s.store.entries.length ++ '\n' :: r.1⟩)
      { s with store := r.2 }

/-- `KeyValueStore::saveToDisk`. -/
def saveToDisk (s : KeyValueStore) (canOpen : Bool) : Outcome (Bool × Option String) :=
  lockGuard s (saveToDiskBody canOpen)

/-- The reading loop of `loadFromDisk`. -/
def loadEntries : Nat → IStream → KeyValueStore → KeyValueStore
  | 0, _, s => s
  | count + 1, f, s =>
    let k := f.getline
    let v := k.2.getline
    loadEntries count v.2 (s.insertFront k.1 v.1)

/-- Body of `KeyValueStore::loadFromDisk` under the lock: `inFile` is the content of the
file, `none` when it cannot be opened.  When `>>` stores nothing, the loop reads `count`
uninitialised. -/
def loadFromDiskBody (inFile : Option String) (s : KeyValueStore) : Outcome Bool :=
  match inFile with
  | none => Outcome.ret false s
  | some text =>
    match IStream.readSizeT { rest := text.data, good := true } with
    | (none, _) => Outcome.undefined
    | (some count, f) =>
      Outcome.ret true (loadEntries count f.ignore { s with store := ∅, usageOrder := [] })

/-- `KeyValueStore::loadFromDisk`. -/
def loadFromDisk (s : KeyValueStore) (inFile : Option String) : Outcome Bool :=
  lockGuard s (loadFromDiskBody inFile)

end KeyValueStore

/-- The key and value lines of a snapshot. -/
def entryLines : List (String × String) → List Char
  | [] => []
  | kv :: kvs => kv.1.data ++ '\n' :: (kv.2.data ++ '\n' :: entryLines kvs)

/-- A well-formed snapshot listing `entries` in file order: the entry count in decimal on
its own line, then, for each entry, its key on one line and its value on the next. -/
def snapshotText (entries : List (String × String)) : String :=
  ⟨Nat.toDigits 10 entries.length ++ '\n' :: entryLines entries⟩

/-- No newline character occurs in the string. -/
def newlineFree (x : String) : Prop :=
  '\n' ∉ x.data

/-- The state the reading loop of `loadFromDisk` builds from the entries of a snapshot. -/
def insertAll (entries : List (String × String)) (s : KeyValueStore) : KeyValueStore :=
  entries.foldl (fun t kv => t.insertFront kv.1 kv.2) s

/-- The entries of `sampleUsers` from most- to least-recently used. -/
def sampleEntries : List (String × String) :=
  [("user3", "Bob Johnson"), ("user2", "Jane Smith"), ("user1", "John Doe")]

/-- What loading the snapshot "2\nk\nv1\nk\nv2\n" leaves in a store of capacity 5: two
nodes for the key "k", one entry. -/
def sampleDuplicate : KeyValueStore :=
  { maxSize := 5
    usageOrder := [(2, "k"), (1, "k")]
    store := AList.singleton "k" ("v2", 2)
    storeMutex := false }

/-! ## Lists of nodes -/

namespace KVStore

theorem lt_freshNode (l : List Node) : ∀ n ∈ l, n.1 < freshNode l := by
  induction l with
  | nil => intro n hn; cases hn
  | cons a l ih =>
    intro n hn
    have hstep : freshNode (a :: l) = max a.1 (freshNode l - 1) + 1 := by
      simp [freshNode]
    rcases List.mem_cons.1 hn with rfl | h
    · rw [hstep]; omega
    · have := ih n h
      rw [hstep]; omega

theorem freshNode_not_mem (l : List Node) : freshNode l ∉ l.map Prod.fst := by
  intro h
  obtain ⟨n, hn, he⟩ := List.mem_map.1 h
  have := lt_freshNode l n hn
  omega

theorem listErase_eq {l : List Node} {it : Nat} {k : String}
    (hn : (l.map Prod.fst).Nodup) (hk : (l.map Prod.snd).Nodup) (hm : (it, k) ∈ l) :
    listErase l it = some (l.filter (fun n => n.2 != k)) := by
  have hany : l.any (fun n => n.1 == it) = true := by
    rw [List.any_eq_true]; exact ⟨(it, k), hm, by simp⟩
  unfold listErase
  rw [if_pos hany]
  congr 1
  apply List.filter_congr
  intro n hnl
  have h1 : n.1 = it → n.2 = k := by
    intro h
    have := List.inj_on_of_nodup_map hn hnl hm h
    rw [this]
  have h2 : n.2 = k → n.1 = it := by
    intro h
    have := List.inj_on_of_nodup_map hk hnl hm h
    rw [this]
  by_cases h : n.1 = it
  · simp [h, h1 h]
  · have : n.2 ≠ k := fun h' => h (h2 h')
    rw [bne_iff_ne.2 h, bne_iff_ne.2 this]

theorem map_snd_filter_key (l : List Node) (k : String) :
    (l.filter (fun n => n.2 != k)).map Prod.snd = (l.map Prod.snd).filter (fun x => x != k) := by
  induction l with
  | nil => rfl
  | cons a l ih =>
    by_cases h : a.2 = k <;> simp [List.filter_cons, h, ih]

theorem nodup_map_filter {α β : Type} (f : α → β) (p : α → Bool) {l : List α}
    (h : (l.map f).Nodup) : ((l.filter p).map f).Nodup :=
  h.sublist ((List.filter_sublist l).map f)

end KVStore

/-! ## The invariant is kept by promotion and removal -/

namespace KeyValueStore

theorem invariant_iff (s : KeyValueStore) :
    s.Invariant ↔
      (s.usageOrder.map Prod.fst).Nodup ∧ s.recency.Nodup ∧
      (∀ k, k ∈ s.store ↔ k ∈ s.recency) ∧
      (∀ k e, s.store.lookup k = some e → (e.2, k) ∈ s.usageOrder) := by
  unfold Invariant recency
  constructor
  · rintro ⟨h1, h2, h3, h4, h5⟩
    refine ⟨h1, h2, fun k => ⟨fun h => h3 k (AList.mem_keys.1 h), fun h => AList.mem_keys.2 (h4 k h)⟩, ?_⟩
    intro k e he
    have : (⟨k, e⟩ : Sigma fun _ : String => Entry) ∈ s.store.entries :=
      AList.mem_lookup_iff.1 (by rw [he]; exact rfl)
    exact h5 _ this
  · rintro ⟨h1, h2, h3, h4⟩
    refine ⟨h1, h2, fun k hk => (h3 k).1 (AList.mem_keys.2 hk),
      fun k hk => AList.mem_keys.1 ((h3 k).2 hk), ?_⟩
    rintro ⟨k, e⟩ he
    have : e ∈ s.store.lookup k := AList.mem_lookup_iff.2 he
    exact h4 k e (Option.mem_def.1 this)

theorem Invariant.mem_iff {s : KeyValueStore} (h : s.Invariant) (k : String) :
    k ∈ s.store ↔ k ∈ s.recency :=
  ((invariant_iff s).1 h).2.2.1 k

theorem Invariant.node_mem {s : KeyValueStore} (h : s.Invariant) {k : String} {e : Entry}
    (he : s.store.lookup k = some e) : (e.2, k) ∈ s.usageOrder :=
  ((invariant_iff s).1 h).2.2.2 k e he

theorem Invariant.nodup {s : KeyValueStore} (h : s.Invariant) : s.recency.Nodup :=
  ((invariant_iff s).1 h).2.1

theorem invariant_new (n : Int) : (new n).Invariant := by
  simp [Invariant, new]

theorem recency_promoted (s : KeyValueStore) (key v : String) :
    (s.promoted key v).recency = key :: s.recency.filter (fun x => x != key) := by
  simp [promoted, recency, pushFront, map_snd_filter_key]

theorem recency_removed (s : KeyValueStore) (key : String) :
    (s.removed key).recency = s.recency.filter (fun x => x != key) := by
  simp [removed, recency, map_snd_filter_key]

theorem value_promoted (s : KeyValueStore) (key v k : String) :
    (s.promoted key v).value k = if k = key then some v else s.value k := by
  unfold value promoted
  by_cases h : k = key
  · subst h; simp [AList.lookup_insert]
  · simp [AList.lookup_insert_ne h, h]

theorem value_removed (s : KeyValueStore) (key k : String) :
    (s.removed key).value k = if k = key then none else s.value k := by
  unfold value removed
  by_cases h : k = key
  · subst h; simp [AList.lookup_erase]
  · simp [AList.lookup_erase_ne h, h]

theorem invariant_promoted {s : KeyValueStore} (h : s.Invariant) (key v : String) :
    (s.promoted key v).Invariant := by
  obtain ⟨h1, h2, h3, h4⟩ := (invariant_iff s).1 h
  rw [invariant_iff]
  refine ⟨?_, ?_, ?_, ?_⟩
  · show (List.map Prod.fst (pushFront _ key)).Nodup
    rw [pushFront, List.map_cons, List.nodup_cons]
    exact ⟨freshNode_not_mem _, nodup_map_filter _ _ h1⟩
  · rw [recency_promoted, List.nodup_cons]
    exact ⟨by simp, h2.filter _⟩
  · intro k
    rw [recency_promoted]
    show k ∈ s.store.insert key _ ↔ _
    rw [AList.mem_insert, h3 k]
    by_cases hk : k = key <;> simp [hk]
  · intro k e he
    change (s.store.insert key _).lookup k = some e at he
    show (e.2, k) ∈ pushFront _ key
    by_cases hk : k = key
    · subst hk
      rw [AList.lookup_insert] at he
      cases he
      simp [pushFront]
    · rw [AList.lookup_insert_ne hk] at he
      have := h4 k e he
      simp [pushFront, this, hk]

theorem invariant_removed {s : KeyValueStore} (h : s.Invariant) (key : String) :
    (s.removed key).Invariant := by
  obtain ⟨h1, h2, h3, h4⟩ := (invariant_iff s).1 h
  rw [invariant_iff]
  refine ⟨nodup_map_filter _ _ h1, ?_, ?_, ?_⟩
  · rw [recency_removed]; exact h2.filter _
  · intro k
    rw [recency_removed]
    show k ∈ s.store.erase key ↔ _
    rw [AList.mem_erase, h3 k]
    by_cases hk : k = key <;> simp [hk]
  · intro k e he
    change (s.store.erase key).lookup k = some e at he
    show (e.2, k) ∈ s.usageOrder.filter _
    by_cases hk : k = key
    · subst hk
      rw [AList.lookup_erase] at he
      cases he
    · rw [AList.lookup_erase_ne hk] at he
      have := h4 k e he
      simp [this, hk]

end KeyValueStore

/-! ## What each method body does on a state satisfying the invariant -/

namespace KVStore

theorem dropLast_eq_filter {l : List Node} {n : Node} (hk : (l.map Prod.snd).Nodup)
    (hl : l.getLast? = some n) : l.dropLast = l.filter (fun m => m.2 != n.2) := by
  have hsplit : l = l.dropLast ++ [n] := (List.dropLast_append_getLast? n hl).symm
  have hk' := hk
  rw [hsplit, List.map_append, List.nodup_append] at hk'
  obtain ⟨_, _, hdis⟩ := hk'
  have hall : ∀ m ∈ l.dropLast, (m.2 != n.2) = true := by
    intro m hm
    rw [bne_iff_ne]
    intro he
    exact hdis (List.mem_map_of_mem Prod.snd hm) (by simp [he])
  conv_rhs => rw [hsplit]
  rw [List.filter_append, List.filter_eq_self.2 hall]
  simp

end KVStore

namespace KeyValueStore

theorem size_eq_length {s : KeyValueStore} (h : s.Invariant) : s.size = s.recency.length := by
  have hp : s.store.keys.Perm s.recency :=
    (List.perm_ext_iff_of_nodup s.store.keys_nodup h.nodup).2
      (fun k => by rw [← AList.mem_keys]; exact h.mem_iff k)
  rw [← hp.length_eq]
  simp [size, AList.keys, List.keys]

theorem insertFront_eq_promoted {s : KeyValueStore} {key : String} (h : key ∉ s.recency)
    (v : String) : s.insertFront key v = s.promoted key v := by
  have hall : s.usageOrder.filter (fun n => n.2 != key) = s.usageOrder := by
    rw [List.filter_eq_self]
    intro n hn
    rw [bne_iff_ne]
    intro he
    exact h (List.mem_map.2 ⟨n, hn, he⟩)
  simp [insertFront, promoted, hall]

theorem updateLRU_eq {s : KeyValueStore} (h : s.Invariant) {key v : String} {it : Nat}
    (hl : s.store.lookup key = some (v, it)) :
    s.updateLRU key = Outcome.ret () (s.promoted key v) := by
  obtain ⟨h1, h2, _, _⟩ := (invariant_iff s).1 h
  have hm : (it, key) ∈ s.usageOrder := h.node_mem hl
  simp [updateLRU, hl, listErase_eq h1 h2 hm, promoted]

theorem evictLRU_of_nil {s : KeyValueStore} (hl : s.usageOrder = []) : s.evictLRU = s := by
  simp [evictLRU, hl]

theorem evictLRU_eq {s : KeyValueStore} (h : s.Invariant) {n : Node}
    (hl : s.usageOrder.getLast? = some n) : s.evictLRU = s.removed n.2 := by
  obtain ⟨_, h2, _, _⟩ := (invariant_iff s).1 h
  simp [evictLRU, hl, removed, dropLast_eq_filter h2 hl]

theorem invariant_evictLRU {s : KeyValueStore} (h : s.Invariant) : s.evictLRU.Invariant := by
  cases hl : s.usageOrder.getLast? with
  | none => rw [evictLRU_of_nil (List.getLast?_eq_none_iff.1 hl)]; exact h
  | some n => rw [evictLRU_eq h hl]; exact invariant_removed h _

theorem recency_evictLRU (s : KeyValueStore) : s.evictLRU.recency = s.recency.dropLast := by
  unfold evictLRU recency
  cases hl : s.usageOrder.getLast? with
  | none => simp [List.getLast?_eq_none_iff.1 hl]
  | some n => simp [List.map_dropLast]

theorem putBody_of_mem {s : KeyValueStore} (h : s.Invariant) {key : String}
    (hk : key ∈ s.store) (v : String) :
    putBody key v s = Outcome.ret () (s.promoted key v) := by
  obtain ⟨⟨v0, it⟩, hl⟩ := Option.isSome_iff_exists.1 (AList.lookup_isSome.2 hk)
  obtain ⟨h1, h2, _, _⟩ := (invariant_iff s).1 h
  have hm : (it, key) ∈ s.usageOrder := h.node_mem hl
  simp [putBody, hl, updateLRU, AList.lookup_insert, listErase_eq h1 h2 hm, promoted,
    AList.insert_insert]

theorem putBody_of_not_mem {s : KeyValueStore} (h : s.Invariant) {key : String}
    (hk : key ∉ s.store) (v : String) :
    putBody key v s = Outcome.ret () (s.madeRoom.promoted key v) := by
  have hl : s.store.lookup key = none := AList.lookup_eq_none.2 hk
  have hr : key ∉ s.madeRoom.recency := by
    intro hmem
    apply hk
    rw [h.mem_iff]
    unfold madeRoom at hmem
    split at hmem
    · rw [recency_evictLRU] at hmem
      exact List.mem_of_mem_dropLast hmem
    · exact hmem
  rw [← insertFront_eq_promoted hr]
  simp [putBody, hl, madeRoom]

end KeyValueStore

/-! ## The public methods called with the mutex free -/

namespace KeyValueStore

theorem unlock_lock {s : KeyValueStore} (hfree : s.storeMutex = false) :
    { ({ s with storeMutex := true } : KeyValueStore) with storeMutex := false } = s := by
  cases s; simp_all

theorem unlock_promoted_lock {s : KeyValueStore} (hfree : s.storeMutex = false)
    (k v : String) :
    { (promoted { s with storeMutex := true } k v) with storeMutex := false }
      = s.promoted k v := by
  cases s; simp_all [promoted]

theorem unlock_removed_lock {s : KeyValueStore} (hfree : s.storeMutex = false) (k : String) :
    { (removed { s with storeMutex := true } k) with storeMutex := false } = s.removed k := by
  cases s; simp_all [removed]

theorem madeRoom_lock (s : KeyValueStore) (b : Bool) :
    madeRoom { s with storeMutex := b } = { s.madeRoom with storeMutex := b } := by
  unfold madeRoom evictLRU
  dsimp only
  split
  · cases s.usageOrder.getLast? <;> rfl
  · rfl

theorem put_of_mem {s : KeyValueStore} (hfree : s.storeMutex = false) (h : s.Invariant)
    {key : String} (hk : key ∈ s.store) (v : String) :
    s.put key v = Outcome.ret () (s.promoted key v) := by
  have hb := putBody_of_mem (s := { s with storeMutex := true }) h hk v
  unfold put lockGuard
  rw [if_neg (by simp [hfree]), hb]
  simp only [unlock_promoted_lock hfree]

theorem put_of_not_mem {s : KeyValueStore} (hfree : s.storeMutex = false) (h : s.Invariant)
    {key : String} (hk : key ∉ s.store) (v : String) :
    s.put key v = Outcome.ret () (s.madeRoom.promoted key v) := by
  have hb := putBody_of_not_mem (s := { s with storeMutex := true }) h hk v
  have hfree' : s.madeRoom.storeMutex = false := by
    unfold madeRoom evictLRU
    split
    · cases s.usageOrder.getLast? <;> simpa using hfree
    · exact hfree
  unfold put lockGuard
  rw [if_neg (by simp [hfree]), hb, madeRoom_lock]
  simp only [unlock_promoted_lock hfree']

theorem get_of_lookup {s : KeyValueStore} (hfree : s.storeMutex = false) (h : s.Invariant)
    {key v : String} {it : Nat} (hl : s.store.lookup key = some (v, it)) :
    s.get key = Outcome.ret v (s.promoted key v) := by
  have hb := updateLRU_eq (s := { s with storeMutex := true }) h hl
  unfold get lockGuard getBody
  rw [if_neg (by simp [hfree])]
  simp only [hl, hb, unlock_promoted_lock hfree]

theorem get_of_not_mem {s : KeyValueStore} (hfree : s.storeMutex = false) {key : String}
    (hk : key ∉ s.store) : s.get key = Outcome.ret "" s := by
  have hl : s.store.lookup key = none := AList.lookup_eq_none.2 hk
  unfold get lockGuard getBody
  rw [if_neg (by simp [hfree])]
  simp only [hl, unlock_lock hfree]

theorem exists_eq {s : KeyValueStore} (hfree : s.storeMutex = false) (key : String) :
    s.exists key = Outcome.ret (s.store.lookup key).isSome s := by
  unfold KeyValueStore.exists lockGuard
  rw [if_neg (by simp [hfree])]
  simp only [unlock_lock hfree]

theorem delBody_of_lookup {s : KeyValueStore} (h : s.Invariant) {key v : String} {it : Nat}
    (hl : s.store.lookup key = some (v, it)) :
    delBody key s = Outcome.ret () (s.removed key) := by
  obtain ⟨h1, h2, _, _⟩ := (invariant_iff s).1 h
  have hm : (it, key) ∈ s.usageOrder := h.node_mem hl
  simp [delBody, hl, listErase_eq h1 h2 hm, removed]

theorem del_of_mem {s : KeyValueStore} (hfree : s.storeMutex = false) (h : s.Invariant)
    {key : String} (hk : key ∈ s.store) : s.del key = Outcome.ret () (s.removed key) := by
  obtain ⟨⟨v0, it⟩, hl⟩ := Option.isSome_iff_exists.1 (AList.lookup_isSome.2 hk)
  have hb := delBody_of_lookup (s := { s with storeMutex := true }) h hl
  unfold del lockGuard
  rw [if_neg (by simp [hfree]), hb]
  simp only [unlock_removed_lock hfree]

theorem del_of_not_mem {s : KeyValueStore} (hfree : s.storeMutex = false) {key : String}
    (hk : key ∉ s.store) : s.del key = Outcome.ret () s := by
  have hl : s.store.lookup key = none := AList.lookup_eq_none.2 hk
  unfold del lockGuard delBody
  rw [if_neg (by simp [hfree])]
  simp only [hl, unlock_lock hfree]

theorem clear_eq {s : KeyValueStore} (hfree : s.storeMutex = false) :
    s.clear = Outcome.ret () { s with store := ∅, usageOrder := [] } := by
  unfold clear lockGuard
  rw [if_neg (by simp [hfree])]
  cases s; simp_all

theorem getKeysWithPrefix_eq {s : KeyValueStore} (hfree : s.storeMutex = false)
    (pfx : String) :
    s.getKeysWithPrefix pfx = Outcome.ret
      ((s.store.entries.filter (fun e => substr e.1 0 pfx.length == pfx)).map Sigma.fst) s := by
  unfold getKeysWithPrefix lockGuard
  rw [if_neg (by simp [hfree])]
  simp only [unlock_lock hfree]

end KeyValueStore

/-! ## Sizes -/

namespace KeyValueStore

theorem length_filter_ne_of_mem {l : List String} (hn : l.Nodup) {k : String} (hk : k ∈ l) :
    (l.filter (fun x => x != k)).length + 1 = l.length := by
  have he : l.filter (fun x => x != k) = l.erase k := (hn.erase_eq_filter k).symm
  rw [he, List.length_erase_of_mem hk]
  have : 0 < l.length := List.length_pos_of_mem hk
  omega

theorem filter_ne_of_not_mem {l : List String} {k : String} (hk : k ∉ l) :
    l.filter (fun x => x != k) = l := by
  rw [List.filter_eq_self]
  intro x hx
  rw [bne_iff_ne]
  rintro rfl
  exact hk hx

theorem size_promoted_of_mem {s : KeyValueStore} (h : s.Invariant) {k : String}
    (hk : k ∈ s.store) (v : String) : (s.promoted k v).size = s.size := by
  rw [size_eq_length (invariant_promoted h k v), size_eq_length h, recency_promoted,
    List.length_cons, length_filter_ne_of_mem h.nodup ((h.mem_iff k).1 hk)]

theorem size_promoted_of_not_mem {s : KeyValueStore} (h : s.Invariant) {k : String}
    (hk : k ∉ s.store) (v : String) : (s.promoted k v).size = s.size + 1 := by
  rw [size_eq_length (invariant_promoted h k v), size_eq_length h, recency_promoted,
    List.length_cons, filter_ne_of_not_mem (fun hm => hk ((h.mem_iff k).2 hm))]

theorem size_removed_of_mem {s : KeyValueStore} (h : s.Invariant) {k : String}
    (hk : k ∈ s.store) : (s.removed k).size + 1 = s.size := by
  rw [size_eq_length (invariant_removed h k), size_eq_length h, recency_removed,
    length_filter_ne_of_mem h.nodup ((h.mem_iff k).1 hk)]

theorem size_evictLRU {s : KeyValueStore} (h : s.Invariant) :
    s.evictLRU.size = s.size - 1 := by
  rw [size_eq_length (invariant_evictLRU h), size_eq_length h, recency_evictLRU,
    List.length_dropLast]

theorem invariant_madeRoom {s : KeyValueStore} (h : s.Invariant) : s.madeRoom.Invariant := by
  unfold madeRoom
  split
  · exact invariant_evictLRU h
  · exact h

theorem not_mem_madeRoom {s : KeyValueStore} {k : String} (hk : k ∉ s.store) :
    k ∉ s.madeRoom.store := by
  unfold madeRoom evictLRU
  split
  · cases s.usageOrder.getLast? with
    | none => exact hk
    | some n =>
      show k ∉ s.store.erase n.2
      rw [AList.mem_erase]
      exact fun hm => hk hm.2
  · exact hk

theorem maxSize_madeRoom (s : KeyValueStore) : s.madeRoom.maxSize = s.maxSize := by
  unfold madeRoom evictLRU
  split
  · cases s.usageOrder.getLast? <;> rfl
  · rfl

theorem storeMutex_madeRoom (s : KeyValueStore) : s.madeRoom.storeMutex = s.storeMutex := by
  unfold madeRoom evictLRU
  split
  · cases s.usageOrder.getLast? <;> rfl
  · rfl

end KeyValueStore

namespace KVStore

theorem toSizeT_of_int {n : Int} (h0 : 0 ≤ n) (h1 : n < 2 ^ 31) : toSizeT n = n.toNat := by
  unfold toSizeT
  rw [Int.emod_eq_of_lt h0 (by omega)]

end KVStore

/-! ## Every method keeps the invariant and the capacity bound -/

namespace KeyValueStore

theorem withinCapacity_put_target {n : Int} (h1 : 1 ≤ n) (h2 : n < 2 ^ 31) {s : KeyValueStore}
    (h : s.WithinCapacity n) {k : String} (hk : k ∉ s.store) (v : String) :
    (s.madeRoom.promoted k v).WithinCapacity n := by
  obtain ⟨hi, hm, hs⟩ := h
  refine ⟨invariant_promoted (invariant_madeRoom hi) k v, ?_, ?_⟩
  · show s.madeRoom.maxSize = n
    rw [maxSize_madeRoom, hm]
  · rw [size_promoted_of_not_mem (invariant_madeRoom hi) (not_mem_madeRoom hk)]
    have hcap : toSizeT s.maxSize = n.toNat := by rw [hm]; exact toSizeT_of_int (by omega) h2
    unfold madeRoom
    rw [hcap]
    have hsz : s.store.entries.length = s.size := rfl
    rw [hsz]
    split
    · rename_i hc
      rw [size_evictLRU hi]
      omega
    · rename_i hc
      omega

theorem putBody_keeps {n : Int} (h1 : 1 ≤ n) (h2 : n < 2 ^ 31) {s : KeyValueStore}
    (h : s.WithinCapacity n) (k v : String) :
    ∃ s', putBody k v s = Outcome.ret () s' ∧ s'.WithinCapacity n ∧
      s'.storeMutex = s.storeMutex := by
  by_cases hk : k ∈ s.store
  · refine ⟨_, putBody_of_mem h.1 hk v, ⟨invariant_promoted h.1 k v, h.2.1, ?_⟩, rfl⟩
    rw [size_promoted_of_mem h.1 hk]; exact h.2.2
  · exact ⟨_, putBody_of_not_mem h.1 hk v, withinCapacity_put_target h1 h2 h hk v,
      storeMutex_madeRoom s⟩

theorem delBody_keeps {n : Int} {s : KeyValueStore} (h : s.WithinCapacity n) (k : String) :
    ∃ s', delBody k s = Outcome.ret () s' ∧ s'.WithinCapacity n ∧
      s'.storeMutex = s.storeMutex := by
  cases hl : s.store.lookup k with
  | none => exact ⟨s, by simp [delBody, hl], h, rfl⟩
  | some e =>
    obtain ⟨v, it⟩ := e
    have hk : k ∈ s.store := AList.lookup_isSome.1 (by rw [hl]; rfl)
    refine ⟨_, delBody_of_lookup h.1 hl, ⟨invariant_removed h.1 k, h.2.1, ?_⟩, rfl⟩
    have := size_removed_of_mem h.1 hk
    have := h.2.2
    omega

theorem batchApplyOp_put {s : KeyValueStore} {op : Operation} (hop : op.1 = "put")
    (hne : toSizeT s.maxSize ≤ s.store.entries.length → s.usageOrder ≠ []) :
    batchApplyOp op s = putBody op.2.1 op.2.2 s := by
  unfold batchApplyOp putBody
  rw [if_pos hop]
  cases hl : s.store.lookup op.2.1 with
  | some e =>
    obtain ⟨v0, it⟩ := e
    simp only [updateLRU, AList.lookup_insert]
    cases listErase s.usageOrder it with
    | none => rfl
    | some l => simp [AList.insert_insert]
  | none =>
    by_cases hc : toSizeT s.maxSize ≤ s.store.entries.length
    · simp only [if_pos hc, evictLRU]
      cases hg : s.usageOrder.getLast? with
      | none => exact absurd (List.getLast?_eq_none_iff.1 hg) (hne hc)
      | some n => rfl
    · simp only [if_neg hc]

theorem batchApplyOp_delete {s : KeyValueStore} {op : Operation} (hop : op.1 = "delete") :
    batchApplyOp op s = delBody op.2.1 s := by
  have hne : op.1 ≠ "put" := by rw [hop]; decide
  unfold batchApplyOp delBody
  rw [if_neg hne, if_pos hop]

theorem batchApplyOp_other {s : KeyValueStore} {op : Operation} (h1 : op.1 ≠ "put")
    (h2 : op.1 ≠ "delete") : batchApplyOp op s = Outcome.ret () s := by
  unfold batchApplyOp
  rw [if_neg h1, if_neg h2]

theorem usageOrder_ne_nil_of_full {n : Int} (h1 : 1 ≤ n) (h2 : n < 2 ^ 31) {s : KeyValueStore}
    (h : s.WithinCapacity n) (hc : toSizeT s.maxSize ≤ s.store.entries.length) :
    s.usageOrder ≠ [] := by
  intro he
  have hcap : toSizeT s.maxSize = n.toNat := by rw [h.2.1]; exact toSizeT_of_int (by omega) h2
  have hsz : s.store.entries.length = s.recency.length := size_eq_length h.1
  rw [hcap, hsz, recency, he] at hc
  simp at hc
  omega

theorem batchApplyOp_keeps {n : Int} (h1 : 1 ≤ n) (h2 : n < 2 ^ 31) {s : KeyValueStore}
    (h : s.WithinCapacity n) (op : Operation) :
    ∃ s', batchApplyOp op s = Outcome.ret () s' ∧ s'.WithinCapacity n ∧
      s'.storeMutex = s.storeMutex := by
  by_cases hp : op.1 = "put"
  · rw [batchApplyOp_put hp (usageOrder_ne_nil_of_full h1 h2 h)]
    exact putBody_keeps h1 h2 h _ _
  · by_cases hd : op.1 = "delete"
    · rw [batchApplyOp_delete hd]
      exact delBody_keeps h _
    · exact ⟨s, batchApplyOp_other hp hd, h, rfl⟩

theorem batchApply_keeps {n : Int} (h1 : 1 ≤ n) (h2 : n < 2 ^ 31) (ops : List Operation) :
    ∀ {s : KeyValueStore}, s.WithinCapacity n →
      ∃ s', batchApply ops s = Outcome.ret () s' ∧ s'.WithinCapacity n ∧
        s'.storeMutex = s.storeMutex := by
  induction ops with
  | nil => intro s h; exact ⟨s, rfl, h, rfl⟩
  | cons op ops ih =>
    intro s h
    obtain ⟨s1, e1, g1, m1⟩ := batchApplyOp_keeps h1 h2 h op
    obtain ⟨s2, e2, g2, m2⟩ := ih g1
    refine ⟨s2, ?_, g2, m2.trans m1⟩
    simp only [batchApply, e1, e2]

theorem exists_of_held {s : KeyValueStore} (hheld : s.storeMutex = true) (key : String) :
    s.exists key = Outcome.deadlock := by
  unfold KeyValueStore.exists lockGuard
  rw [if_pos hheld]

theorem batchValidate_of_held {s : KeyValueStore} (hheld : s.storeMutex = true)
    (ops : List Operation) :
    batchValidate ops s =
      if ops.any (fun op => op.1 == "get") then Outcome.deadlock else Outcome.ret true s := by
  induction ops with
  | nil => rfl
  | cons op ops ih =>
    by_cases hg : op.1 = "get"
    · simp [batchValidate, hg, exists_of_held hheld]
    · have hb : (op.1 == "get") = false := beq_eq_false_iff_ne.2 hg
      rw [batchValidate, if_neg hg, ih, List.any_cons, hb, Bool.false_or]

end KeyValueStore

/-! ## Call sequences -/

namespace KeyValueStore

theorem lockGuard_of_ret {α : Type} {s t : KeyValueStore} (hfree : s.storeMutex = false)
    {body : KeyValueStore → Outcome α} {r : α}
    (hb : body { s with storeMutex := true } = Outcome.ret r t) :
    lockGuard s body = Outcome.ret r { t with storeMutex := false } := by
  unfold lockGuard
  rw [if_neg (by simp [hfree]), hb]

theorem getBody_keeps {n : Int} {s : KeyValueStore} (h : s.WithinCapacity n) (k : String) :
    ∃ r s', getBody k s = Outcome.ret r s' ∧ s'.WithinCapacity n := by
  cases hl : s.store.lookup k with
  | none => exact ⟨"", s, by simp [getBody, hl], h⟩
  | some e =>
    obtain ⟨v, it⟩ := e
    have hk : k ∈ s.store := AList.lookup_isSome.1 (by rw [hl]; rfl)
    refine ⟨v, s.promoted k v, by simp [getBody, hl, updateLRU_eq h.1 hl],
      invariant_promoted h.1 k v, h.2.1, ?_⟩
    rw [size_promoted_of_mem h.1 hk]; exact h.2.2

theorem batchProcessBody_keeps {n : Int} (h1 : 1 ≤ n) (h2 : n < 2 ^ 31) {s : KeyValueStore}
    (hheld : s.storeMutex = true) (h : s.WithinCapacity n) (ops : List Operation)
    {b : Bool} {s' : KeyValueStore} (hr : batchProcessBody ops s = Outcome.ret b s') :
    s'.WithinCapacity n := by
  unfold batchProcessBody at hr
  rw [batchValidate_of_held hheld] at hr
  by_cases hg : ops.any (fun op => op.1 == "get") = true
  · rw [if_pos hg] at hr
    cases hr
  · obtain ⟨t, e, g, _⟩ := batchApply_keeps h1 h2 ops h
    rw [if_neg hg] at hr
    simp only [e] at hr
    cases hr
    exact g

end KeyValueStore

theorem Call.step_keeps {n : Int} (h1 : 1 ≤ n) (h2 : n < 2 ^ 31) (c : Call)
    {s s' : KeyValueStore} (hfree : s.storeMutex = false) (h : s.WithinCapacity n)
    (hs : c.step s = some s') : s'.WithinCapacity n ∧ s'.storeMutex = false := by
  have hlock : KeyValueStore.WithinCapacity n { s with storeMutex := true } := h
  cases c with
  | put k v =>
    obtain ⟨t, e, g, _⟩ := KeyValueStore.putBody_keeps h1 h2 hlock k v
    simp only [Call.step, KeyValueStore.put, KeyValueStore.lockGuard_of_ret hfree e,
      Outcome.state?, Option.some.injEq] at hs
    subst hs
    exact ⟨g, rfl⟩
  | get k =>
    obtain ⟨r, t, e, g⟩ := KeyValueStore.getBody_keeps hlock k
    simp only [Call.step, KeyValueStore.get, KeyValueStore.lockGuard_of_ret hfree e,
      Outcome.state?, Option.some.injEq] at hs
    subst hs
    exact ⟨g, rfl⟩
  | «exists» k =>
    simp only [Call.step, KeyValueStore.exists_eq hfree, Outcome.state?,
      Option.some.injEq] at hs
    subst hs
    exact ⟨h, hfree⟩
  | del k =>
    obtain ⟨t, e, g, _⟩ := KeyValueStore.delBody_keeps hlock k
    simp only [Call.step, KeyValueStore.del, KeyValueStore.lockGuard_of_ret hfree e,
      Outcome.state?, Option.some.injEq] at hs
    subst hs
    exact ⟨g, rfl⟩
  | clear =>
    simp only [Call.step, KeyValueStore.clear_eq hfree, Outcome.state?,
      Option.some.injEq] at hs
    subst hs
    refine ⟨⟨by simp [KeyValueStore.Invariant], h.2.1, ?_⟩, hfree⟩
    show ((0 : Nat) : Int) ≤ n
    omega
  | getKeysWithPrefix p =>
    simp only [Call.step, KeyValueStore.getKeysWithPrefix_eq hfree, Outcome.state?,
      Option.some.injEq] at hs
    subst hs
    exact ⟨h, hfree⟩
  | batchProcess ops =>
    simp only [Call.step, KeyValueStore.batchProcess, KeyValueStore.lockGuard] at hs
    rw [if_neg (by simp [hfree])] at hs
    cases hb : KeyValueStore.batchProcessBody ops { s with storeMutex := true } with
    | ret b t =>
      rw [hb] at hs
      simp only [Outcome.state?, Option.some.injEq] at hs
      subst hs
      have g : t.WithinCapacity n :=
        KeyValueStore.batchProcessBody_keeps h1 h2 rfl hlock ops hb
      exact ⟨g, rfl⟩
    | deadlock => rw [hb] at hs; simp [Outcome.state?] at hs
    | undefined => rw [hb] at hs; simp [Outcome.state?] at hs
  | size =>
    simp only [Call.step, Option.some.injEq] at hs
    subst hs
    exact ⟨h, hfree⟩

theorem runCalls_keeps {n : Int} (h1 : 1 ≤ n) (h2 : n < 2 ^ 31) (calls : List Call) :
    ∀ {s s' : KeyValueStore}, s.storeMutex = false → s.WithinCapacity n →
      runCalls calls s = some s' → s'.WithinCapacity n ∧ s'.storeMutex = false := by
  induction calls with
  | nil =>
    intro s s' hfree h hr
    simp only [runCalls, Option.some.injEq] at hr
    subst hr
    exact ⟨h, hfree⟩
  | cons c cs ih =>
    intro s s' hfree h hr
    cases hc : c.step s with
    | none => simp [runCalls, hc] at hr
    | some t =>
      simp only [runCalls, hc] at hr
      obtain ⟨g, m⟩ := Call.step_keeps h1 h2 c hfree h hc
      exact ih m g hr

theorem withinCapacity_new {n : Int} (h1 : 1 ≤ n) : (KeyValueStore.new n).WithinCapacity n :=
  ⟨KeyValueStore.invariant_new n, rfl, by
    show ((0 : Nat) : Int) ≤ n
    omega⟩

/-! ## Which calls return -/

namespace KeyValueStore

theorem batchProcess_of_get {s : KeyValueStore} (hfree : s.storeMutex = false)
    {ops : List Operation} (hg : ops.any (fun op => op.1 == "get") = true) :
    s.batchProcess ops = Outcome.deadlock := by
  unfold batchProcess lockGuard batchProcessBody
  rw [if_neg (by simp [hfree]), batchValidate_of_held rfl, if_pos hg]

theorem batchProcess_of_no_get {n : Int} (h1 : 1 ≤ n) (h2 : n < 2 ^ 31) {s : KeyValueStore}
    (hfree : s.storeMutex = false) (h : s.WithinCapacity n) {ops : List Operation}
    (hg : ops.any (fun op => op.1 == "get") = false) :
    ∃ s', s.batchProcess ops = Outcome.ret true s' := by
  have hlock : WithinCapacity n { s with storeMutex := true } := h
  obtain ⟨t, e, _, _⟩ := batchApply_keeps h1 h2 ops hlock
  refine ⟨{ t with storeMutex := false }, ?_⟩
  apply lockGuard_of_ret hfree
  unfold batchProcessBody
  rw [batchValidate_of_held rfl, if_neg (by simp [hg])]
  simp only [e]

end KeyValueStore

theorem Call.step_returns {n : Int} (h1 : 1 ≤ n) (h2 : n < 2 ^ 31) (c : Call)
    {s : KeyValueStore} (hfree : s.storeMutex = false) (h : s.WithinCapacity n)
    (hc : c.relocks = false) : ∃ s', c.step s = some s' := by
  have hlock : KeyValueStore.WithinCapacity n { s with storeMutex := true } := h
  cases c with
  | put k v =>
    obtain ⟨t, e, _, _⟩ := KeyValueStore.putBody_keeps h1 h2 hlock k v
    exact ⟨{ t with storeMutex := false }, by simp only [Call.step, KeyValueStore.put,
      KeyValueStore.lockGuard_of_ret hfree e, Outcome.state?]⟩
  | get k =>
    obtain ⟨r, t, e, _⟩ := KeyValueStore.getBody_keeps hlock k
    exact ⟨{ t with storeMutex := false }, by simp only [Call.step, KeyValueStore.get,
      KeyValueStore.lockGuard_of_ret hfree e, Outcome.state?]⟩
  | «exists» k =>
    exact ⟨s, by simp only [Call.step, KeyValueStore.exists_eq hfree, Outcome.state?]⟩
  | del k =>
    obtain ⟨t, e, _, _⟩ := KeyValueStore.delBody_keeps hlock k
    exact ⟨{ t with storeMutex := false }, by simp only [Call.step, KeyValueStore.del,
      KeyValueStore.lockGuard_of_ret hfree e, Outcome.state?]⟩
  | clear =>
    exact ⟨{ s with store := ∅, usageOrder := [] },
      by simp only [Call.step, KeyValueStore.clear_eq hfree, Outcome.state?]⟩
  | getKeysWithPrefix p =>
    exact ⟨s, by simp only [Call.step, KeyValueStore.getKeysWithPrefix_eq hfree,
      Outcome.state?]⟩
  | batchProcess ops =>
    obtain ⟨t, e⟩ := KeyValueStore.batchProcess_of_no_get h1 h2 hfree h hc
    exact ⟨t, by simp only [Call.step, e, Outcome.state?]⟩
  | size => exact ⟨s, rfl⟩

theorem runCalls_returns {n : Int} (h1 : 1 ≤ n) (h2 : n < 2 ^ 31) (calls : List Call) :
    ∀ {s : KeyValueStore}, s.storeMutex = false → s.WithinCapacity n →
      (∀ c ∈ calls, c.relocks = false) → ∃ s', runCalls calls s = some s' := by
  induction calls with
  | nil => intro s _ _ _; exact ⟨s, rfl⟩
  | cons c cs ih =>
    intro s hfree h hall
    obtain ⟨t, e⟩ := Call.step_returns h1 h2 c hfree h (hall c (List.mem_cons_self _ _))
    obtain ⟨g, m⟩ := Call.step_keeps h1 h2 c hfree h e
    obtain ⟨s', e'⟩ := ih m g (fun c' hc' => hall c' (List.mem_cons_of_mem _ hc'))
    exact ⟨s', by simp only [runCalls, e, e']⟩

/-- C1 (capacity invariant): for every `int` capacity `maxSize >= 1` and every finite
sequence of `put`, `get`, `exists`, `del`, `clear`, `getKeysWithPrefix`, `batchProcess` and
`size` calls made on a freshly constructed store, `size() <= maxSize` holds in the state
reached; every prefix of a call sequence is a call sequence, so the bound holds after each
call. -/
theorem capacity_invariant (maxSize : Int) (h1 : 1 ≤ maxSize) (h2 : maxSize < 2 ^ 31)
    (calls : List Call) (s : KeyValueStore)
    (hrun : runCalls calls (KeyValueStore.new maxSize) = some s) :
    (s.size : Int) ≤ maxSize :=
  (runCalls_keeps h1 h2 calls rfl (withinCapacity_new h1) hrun).1.2.2

theorem capacity_invariant_witness :
    (1 : Int) ≤ 2 ∧ (2 : Int) < 2 ^ 31 ∧
    runCalls sampleCalls (KeyValueStore.new 2) = some sampleAfterCalls ∧
    (sampleAfterCalls.size : Int) ≤ 2 :=
  ⟨by decide, by decide, rfl,
    capacity_invariant 2 (by decide) (by decide) sampleCalls sampleAfterCalls rfl⟩

/-- C2 (index/recency invariant): for every `int` capacity `maxSize >= 1`, every state
reached from the empty store by `put`, `get`, `del`, `clear` and `batchProcess` calls (and
by `exists`, `getKeysWithPrefix` and `size` calls) satisfies the invariant: the index and
`usageOrder` hold the same keys, no key occurs twice in `usageOrder`, and the iterator the
index stores for a key designates the node of `usageOrder` holding that key. -/
theorem index_recency_invariant (maxSize : Int) (h1 : 1 ≤ maxSize) (h2 : maxSize < 2 ^ 31)
    (calls : List Call) (s : KeyValueStore)
    (hrun : runCalls calls (KeyValueStore.new maxSize) = some s) :
    (s.usageOrder.map Prod.fst).Nodup ∧
    (s.usageOrder.map Prod.snd).Nodup ∧
    (∀ k, k ∈ s.store ↔ k ∈ s.usageOrder.map Prod.snd) ∧
    (∀ k v it, s.store.lookup k = some (v, it) → (it, k) ∈ s.usageOrder) := by
  have h := (runCalls_keeps h1 h2 calls rfl (withinCapacity_new h1) hrun).1.1
  obtain ⟨a, b, c, d⟩ := (KeyValueStore.invariant_iff s).1 h
  exact ⟨a, b, c, fun k v it hl => d k (v, it) hl⟩

theorem index_recency_invariant_witness :
    (1 : Int) ≤ 3 ∧ (3 : Int) < 2 ^ 31 ∧
    runCalls sampleCalls3 (KeyValueStore.new 3) = some sampleAfterCalls3 ∧
    (sampleAfterCalls3.usageOrder.map Prod.fst).Nodup ∧
    (sampleAfterCalls3.usageOrder.map Prod.snd).Nodup ∧
    (∀ k, k ∈ sampleAfterCalls3.store ↔ k ∈ sampleAfterCalls3.usageOrder.map Prod.snd) ∧
    (∀ k v it, sampleAfterCalls3.store.lookup k = some (v, it) →
      (it, k) ∈ sampleAfterCalls3.usageOrder) :=
  ⟨by decide, by decide, rfl,
    index_recency_invariant 3 (by decide) (by decide) sampleCalls3 sampleAfterCalls3 rfl⟩

/-! ## Putting a list of distinct keys into an empty store -/

theorem putAll_append (a b : List (String × String)) :
    ∀ s : KeyValueStore, putAll (a ++ b) s = (putAll a s).bind (putAll b) := by
  induction a with
  | nil => intro s; rfl
  | cons kv a ih =>
    intro s
    simp only [List.cons_append, putAll]
    cases s.put kv.1 kv.2 with
    | ret r s' => exact ih s'
    | deadlock => rfl
    | undefined => rfl

namespace KeyValueStore

theorem recency_madeRoom {n : Int} (h1 : 1 ≤ n) (h2 : n < 2 ^ 31) {s : KeyValueStore}
    (h : s.WithinCapacity n) :
    s.madeRoom.recency = s.recency.take (n.toNat - 1) := by
  have hcap : toSizeT s.maxSize = n.toNat := by rw [h.2.1]; exact toSizeT_of_int (by omega) h2
  have hsz : s.store.entries.length = s.recency.length := size_eq_length h.1
  have hle : s.recency.length ≤ n.toNat := by
    have := h.2.2
    rw [size_eq_length h.1] at this
    omega
  unfold madeRoom
  rw [hcap, hsz]
  split
  · rename_i hc
    have he : s.recency.length - 1 = n.toNat - 1 := by omega
    rw [recency_evictLRU, List.dropLast_eq_take, he]
  · rename_i hc
    rw [List.take_of_length_le (by omega)]

theorem value_madeRoom {s : KeyValueStore} (h : s.Invariant) {k : String}
    (hk : k ∈ s.madeRoom.recency) : s.madeRoom.value k = s.value k := by
  unfold madeRoom at hk ⊢
  split
  · rename_i hc
    rw [if_pos hc] at hk
    cases hl : s.usageOrder.getLast? with
    | none => rw [evictLRU_of_nil (List.getLast?_eq_none_iff.1 hl)]
    | some m =>
      rw [evictLRU_eq h hl] at hk ⊢
      rw [recency_removed] at hk
      have hne : k ≠ m.2 := by
        have := (List.mem_filter.1 hk).2
        exact bne_iff_ne.1 this
      rw [value_removed, if_neg hne]
  · rfl

end KeyValueStore

theorem putAll_new {n : Int} (h1 : 1 ≤ n) (h2 : n < 2 ^ 31) (kvs : List (String × String))
    (hd : (kvs.map Prod.fst).Nodup) :
    ∃ s, putAll kvs (KeyValueStore.new n) = some s ∧ s.WithinCapacity n ∧
      s.storeMutex = false ∧
      s.recency = (kvs.reverse.map Prod.fst).take n.toNat ∧
      ∀ kv ∈ kvs, kv.1 ∈ s.recency → s.value kv.1 = some kv.2 := by
  induction kvs using List.reverseRecOn with
  | nil =>
    exact ⟨KeyValueStore.new n, rfl, withinCapacity_new h1, rfl, by simp [KeyValueStore.recency,
      KeyValueStore.new], fun kv hkv => by cases hkv⟩
  | append_singleton kvs kv ih =>
    rw [List.map_append, List.nodup_append] at hd
    obtain ⟨hd1, _, hdis⟩ := hd
    have hnew : kv.1 ∉ kvs.map Prod.fst := fun hm => hdis hm (by simp)
    obtain ⟨s, hs, hw, hfree, hrec, hval⟩ := ih hd1
    have hsub : ∀ k, k ∈ s.recency → k ∈ kvs.map Prod.fst := by
      intro k hk
      rw [hrec] at hk
      have := List.mem_of_mem_take hk
      simpa using this
    have hk : kv.1 ∉ s.store := fun hm => hnew (hsub _ ((hw.1.mem_iff _).1 hm))
    have hput := KeyValueStore.put_of_not_mem hfree hw.1 hk kv.2
    have hrm := KeyValueStore.recency_madeRoom h1 h2 hw
    have hnotin : kv.1 ∉ s.madeRoom.recency := by
      rw [hrm]
      exact fun hm => hk ((hw.1.mem_iff _).2 (List.mem_of_mem_take hm))
    have hrec' : (s.madeRoom.promoted kv.1 kv.2).recency
        = kv.1 :: s.recency.take (n.toNat - 1) := by
      rw [KeyValueStore.recency_promoted, KeyValueStore.filter_ne_of_not_mem hnotin, hrm]
    refine ⟨s.madeRoom.promoted kv.1 kv.2, ?_, ?_, ?_, ?_, ?_⟩
    · rw [putAll_append, hs]
      simp only [Option.bind, putAll, hput]
    · exact KeyValueStore.withinCapacity_put_target h1 h2 hw hk kv.2
    · exact (KeyValueStore.storeMutex_madeRoom s).trans hfree
    · rw [hrec', hrec, List.take_take]
      have hn : n.toNat = (n.toNat - 1) + 1 := by omega
      rw [List.reverse_append, List.map_append]
      simp only [List.reverse_cons, List.reverse_nil, List.nil_append, List.map_cons,
        List.map_nil, List.singleton_append]
      conv_rhs => rw [hn, List.take_succ_cons]
      congr 2
      omega
    · intro kv' hkv' hmem
      rw [KeyValueStore.value_promoted]
      rcases List.mem_append.1 hkv' with hin | hin
      · have hne : kv'.1 ≠ kv.1 := fun he => hnew (he ▸ List.mem_map_of_mem Prod.fst hin)
        rw [if_neg hne]
        rw [hrec'] at hmem
        have hmem' : kv'.1 ∈ s.recency.take (n.toNat - 1) := by
          rcases List.mem_cons.1 hmem with he | hm
          · exact absurd he hne
          · exact hm
        rw [KeyValueStore.value_madeRoom hw.1 (by rw [hrm]; exact hmem')]
        exact hval kv' hin (List.mem_of_mem_take hmem')
      · have : kv' = kv := by simpa using hin
        subst this
        rw [if_pos rfl]

/-- C3 (LRU eviction): for every `int` capacity `N >= 1` and every list of `m` pairs with
pairwise distinct keys put in order into an empty store, every put returns and the store then
holds exactly the last `min m N` keys, each with the value it was put with, most recently
put first in `usageOrder`; when `m = N + 1` exactly the first key put is gone. -/
theorem lru_eviction (N : Int) (h1 : 1 ≤ N) (h2 : N < 2 ^ 31) (kvs : List (String × String))
    (hd : (kvs.map Prod.fst).Nodup) :
    ∃ s, putAll kvs (KeyValueStore.new N) = some s ∧
      s.size = min kvs.length N.toNat ∧
      (∀ k, k ∈ s.store ↔ k ∈ (kvs.drop (kvs.length - N.toNat)).map Prod.fst) ∧
      (∀ kv ∈ kvs.drop (kvs.length - N.toNat), s.value kv.1 = some kv.2) ∧
      s.recency = ((kvs.drop (kvs.length - N.toNat)).map Prod.fst).reverse ∧
      (∀ kv0 rest, kvs = kv0 :: rest → rest.length = N.toNat →
        kv0.1 ∉ s.store ∧ ∀ kv ∈ rest, s.value kv.1 = some kv.2) := by
  obtain ⟨s, hs, hw, _, hrec, hval⟩ := putAll_new h1 h2 kvs hd
  have hrec' : s.recency = ((kvs.drop (kvs.length - N.toNat)).map Prod.fst).reverse := by
    rw [hrec, ← List.map_take, List.take_reverse, List.map_reverse]
  have hmem : ∀ k, k ∈ s.store ↔ k ∈ (kvs.drop (kvs.length - N.toNat)).map Prod.fst := by
    intro k
    rw [hw.1.mem_iff, hrec', List.mem_reverse]
  have hvals : ∀ kv ∈ kvs.drop (kvs.length - N.toNat), s.value kv.1 = some kv.2 := by
    intro kv hkv
    apply hval kv (List.mem_of_mem_drop hkv)
    rw [hrec', List.mem_reverse]
    exact List.mem_map_of_mem Prod.fst hkv
  refine ⟨s, hs, ?_, hmem, hvals, hrec', ?_⟩
  · rw [KeyValueStore.size_eq_length hw.1, hrec']
    simp only [List.length_reverse, List.length_map, List.length_drop]
    omega
  · intro kv0 rest he hlen
    subst he
    have hdrop : (kv0 :: rest).drop ((kv0 :: rest).length - N.toNat) = rest := by
      have : (kv0 :: rest).length - N.toNat = 1 := by simp [hlen]
      rw [this]; rfl
    rw [hdrop] at hmem hvals
    refine ⟨?_, hvals⟩
    rw [hmem]
    exact (List.nodup_cons.1 hd).1

theorem lru_eviction_witness :
    (1 : Int) ≤ 5 ∧ (5 : Int) < 2 ^ 31 ∧ (lruDemo.map Prod.fst).Nodup ∧
    (lruDemo.drop (lruDemo.length - (5 : Int).toNat)).map Prod.fst
      = ["lru_key_3", "lru_key_4", "lru_key_5", "lru_key_6", "lru_key_7"] ∧
    ∃ s, putAll lruDemo (KeyValueStore.new 5) = some s ∧
      s.size = min lruDemo.length (5 : Int).toNat ∧
      (∀ k, k ∈ s.store ↔
        k ∈ (lruDemo.drop (lruDemo.length - (5 : Int).toNat)).map Prod.fst) ∧
      (∀ kv ∈ lruDemo.drop (lruDemo.length - (5 : Int).toNat), s.value kv.1 = some kv.2) ∧
      s.recency = ((lruDemo.drop (lruDemo.length - (5 : Int).toNat)).map Prod.fst).reverse ∧
      (∀ kv0 rest, lruDemo = kv0 :: rest → rest.length = (5 : Int).toNat →
        kv0.1 ∉ s.store ∧ ∀ kv ∈ rest, s.value kv.1 = some kv.2) :=
  ⟨by decide, by decide, by decide, by decide,
    lru_eviction 5 (by decide) (by decide) lruDemo (by decide)⟩

namespace KeyValueStore

theorem lookup_of_value {s : KeyValueStore} {k v : String} (h : s.value k = some v) :
    ∃ it, s.store.lookup k = some (v, it) := by
  unfold value at h
  cases hl : s.store.lookup k with
  | none => rw [hl] at h; cases h
  | some e =>
    rw [hl] at h
    obtain ⟨v', it⟩ := e
    cases h
    exact ⟨it, rfl⟩

theorem mem_of_value {s : KeyValueStore} {k v : String} (h : s.value k = some v) :
    k ∈ s.store := by
  obtain ⟨it, hl⟩ := lookup_of_value h
  exact AList.lookup_isSome.1 (by rw [hl]; rfl)

end KeyValueStore

/-- C4 fails at capacity 1: after `put("a", "1")` on an empty store of capacity 1,
`get("a")` returns "1", and the following `put("b", "2")` evicts "a", the only key. -/
theorem get_protects_fails_at_capacity_one :
    putAll [("a", "1")] (KeyValueStore.new 1) = some sampleOnlyA ∧
    sampleOnlyA.get "a" = Outcome.ret "1" sampleOnlyA ∧
    sampleOnlyA.put "b" "2" = Outcome.ret () sampleOnlyB ∧
    sampleOnlyB.value "a" = none :=
  ⟨rfl, rfl, rfl, by decide⟩

/-- C4, amended (get protects from eviction when the capacity is at least 2): for every
`int` capacity `N >= 2`, after putting `N` pairs with pairwise distinct keys into an empty
store, `get` on any one of these keys returns its value, and the following `put` of a new
key leaves the accessed key in the store with its value. -/
theorem get_protects_from_eviction (N : Int) (h1 : 2 ≤ N) (h2 : N < 2 ^ 31)
    (kvs : List (String × String)) (hd : (kvs.map Prod.fst).Nodup)
    (hlen : kvs.length = N.toNat) (kv : String × String) (hkv : kv ∈ kvs)
    (knew vnew : String) (hnew : knew ∉ kvs.map Prod.fst) :
    ∃ s1 s2 s3, putAll kvs (KeyValueStore.new N) = some s1 ∧
      s1.get kv.1 = Outcome.ret kv.2 s2 ∧
      s2.put knew vnew = Outcome.ret () s3 ∧
      kv.1 ∈ s3.store ∧ s3.value kv.1 = some kv.2 := by
  obtain ⟨s1, hs, hw, hfree, hrec, hval⟩ := putAll_new (by omega) h2 kvs hd
  have hrec1 : s1.recency = kvs.reverse.map Prod.fst := by
    rw [hrec, List.take_of_length_le (by simp [hlen])]
  have hv1 : s1.value kv.1 = some kv.2 := by
    apply hval kv hkv
    rw [hrec1]
    simpa using List.mem_map_of_mem Prod.fst hkv
  obtain ⟨it, hl⟩ := KeyValueStore.lookup_of_value hv1
  have hk1 : kv.1 ∈ s1.store := KeyValueStore.mem_of_value hv1
  have hget := KeyValueStore.get_of_lookup hfree hw.1 hl
  have hi2 : (s1.promoted kv.1 kv.2).Invariant := KeyValueStore.invariant_promoted hw.1 _ _
  have hw2 : (s1.promoted kv.1 kv.2).WithinCapacity N := by
    refine ⟨hi2, hw.2.1, ?_⟩
    rw [KeyValueStore.size_promoted_of_mem hw.1 hk1]; exact hw.2.2
  have hne : kv.1 ≠ knew := fun he => hnew (he ▸ List.mem_map_of_mem Prod.fst hkv)
  have hk2 : knew ∉ (s1.promoted kv.1 kv.2).store := by
    show knew ∉ s1.store.insert kv.1 _
    rw [AList.mem_insert]
    rintro (he | hm)
    · exact hne he.symm
    · rw [hw.1.mem_iff, hrec1] at hm
      exact hnew (by simpa using hm)
  have hput := KeyValueStore.put_of_not_mem (s := s1.promoted kv.1 kv.2) hfree hi2 hk2 vnew
  have hrm := KeyValueStore.recency_madeRoom (by omega) h2 hw2
  have hin : kv.1 ∈ (s1.promoted kv.1 kv.2).madeRoom.recency := by
    rw [hrm, KeyValueStore.recency_promoted]
    have hn : N.toNat - 1 = (N.toNat - 2) + 1 := by omega
    rw [hn, List.take_succ_cons]
    exact List.mem_cons_self _ _
  have hv3 : ((s1.promoted kv.1 kv.2).madeRoom.promoted knew vnew).value kv.1
      = some kv.2 := by
    rw [KeyValueStore.value_promoted, if_neg hne, KeyValueStore.value_madeRoom hi2 hin,
      KeyValueStore.value_promoted, if_pos rfl]
  exact ⟨s1, _, _, hs, hget, hput, KeyValueStore.mem_of_value hv3, hv3⟩

theorem get_protects_from_eviction_witness :
    (2 : Int) ≤ 2 ∧ (2 : Int) < 2 ^ 31 ∧
    (([("a", "1"), ("b", "2")] : List (String × String)).map Prod.fst).Nodup ∧
    ([("a", "1"), ("b", "2")] : List (String × String)).length = (2 : Int).toNat ∧
    (("a", "1") : String × String) ∈ ([("a", "1"), ("b", "2")] : List (String × String)) ∧
    "c" ∉ ([("a", "1"), ("b", "2")] : List (String × String)).map Prod.fst ∧
    ∃ s1 s2 s3, putAll [("a", "1"), ("b", "2")] (KeyValueStore.new 2) = some s1 ∧
      s1.get "a" = Outcome.ret "1" s2 ∧
      s2.put "c" "3" = Outcome.ret () s3 ∧
      "a" ∈ s3.store ∧ s3.value "a" = some "1" :=
  ⟨by decide, by decide, by decide, by decide, by decide, by decide,
    get_protects_from_eviction 2 (by decide) (by decide) [("a", "1"), ("b", "2")]
      (by decide) (by decide) ("a", "1") (by decide) "c" "3" (by decide)⟩

/-! ## Single calls -/

namespace KeyValueStore

theorem put_returns {s : KeyValueStore} (hfree : s.storeMutex = false) (h : s.Invariant)
    (k v : String) :
    ∃ s0 : KeyValueStore, s.put k v = Outcome.ret () (s0.promoted k v) ∧ s0.Invariant ∧
      s0.storeMutex = false := by
  by_cases hk : k ∈ s.store
  · exact ⟨s, put_of_mem hfree h hk v, h, hfree⟩
  · exact ⟨s.madeRoom, put_of_not_mem hfree h hk v, invariant_madeRoom h,
      (storeMutex_madeRoom s).trans hfree⟩

theorem lookup_promoted (s : KeyValueStore) (k v : String) :
    (s.promoted k v).store.lookup k
      = some (v, freshNode (s.usageOrder.filter (fun n => n.2 != k))) := by
  show (s.store.insert k _).lookup k = _
  rw [AList.lookup_insert]

end KeyValueStore

/-- C5 (update is not insert): on a state satisfying the invariant, with the mutex free,
`put(k, v)` for a key `k` already in the store returns and leaves `size()` and the key set
unchanged (nothing is evicted, whatever the capacity), sets the value of `k` to `v`, leaves
the value of every other key unchanged, and moves `k` to the head of `usageOrder` keeping the
relative order of the other keys. -/
theorem put_existing_is_update (s : KeyValueStore) (hfree : s.storeMutex = false)
    (hinv : s.Invariant) (k v : String) (hk : k ∈ s.store) :
    ∃ s', s.put k v = Outcome.ret () s' ∧
      s'.size = s.size ∧
      (∀ k', k' ∈ s'.store ↔ k' ∈ s.store) ∧
      s'.value k = some v ∧
      (∀ k', k' ≠ k → s'.value k' = s.value k') ∧
      s'.recency = k :: s.recency.filter (fun x => x != k) := by
  refine ⟨s.promoted k v, KeyValueStore.put_of_mem hfree hinv hk v,
    KeyValueStore.size_promoted_of_mem hinv hk v, ?_, ?_, ?_,
    KeyValueStore.recency_promoted s k v⟩
  · intro k'
    show k' ∈ s.store.insert k _ ↔ _
    rw [AList.mem_insert]
    constructor
    · rintro (rfl | h)
      · exact hk
      · exact h
    · exact Or.inr
  · rw [KeyValueStore.value_promoted, if_pos rfl]
  · intro k' hne
    rw [KeyValueStore.value_promoted, if_neg hne]

theorem put_existing_is_update_witness :
    sampleFull.storeMutex = false ∧ sampleFull.Invariant ∧ "a" ∈ sampleFull.store ∧
    ∃ s', sampleFull.put "a" "9" = Outcome.ret () s' ∧
      s'.size = sampleFull.size ∧
      (∀ k', k' ∈ s'.store ↔ k' ∈ sampleFull.store) ∧
      s'.value "a" = some "9" ∧
      (∀ k', k' ≠ "a" → s'.value k' = sampleFull.value k') ∧
      s'.recency = "a" :: sampleFull.recency.filter (fun x => x != "a") :=
  ⟨rfl, ⟨by decide, by decide, by decide, by decide, by decide⟩, by decide,
    put_existing_is_update sampleFull rfl
      ⟨by decide, by decide, by decide, by decide, by decide⟩ "a" "9" (by decide)⟩

/-- C6 (put/get round trip): on a state satisfying the invariant, with the mutex free and
whatever the capacity, `put(k, v)` returns, `get(k)` called next returns `v`, and afterwards
`k` is at the head of `usageOrder`. -/
theorem put_get_round_trip (s : KeyValueStore) (hfree : s.storeMutex = false)
    (hinv : s.Invariant) (k v : String) :
    ∃ s1 s2, s.put k v = Outcome.ret () s1 ∧ s1.get k = Outcome.ret v s2 ∧
      s2.recency.head? = some k := by
  obtain ⟨s0, hput, hi0, hf0⟩ := KeyValueStore.put_returns hfree hinv k v
  have hi1 := KeyValueStore.invariant_promoted hi0 k v
  have hget := KeyValueStore.get_of_lookup (s := s0.promoted k v) hf0 hi1
    (KeyValueStore.lookup_promoted s0 k v)
  exact ⟨_, _, hput, hget, by rw [KeyValueStore.recency_promoted]; rfl⟩

theorem put_get_round_trip_witness :
    (KeyValueStore.new 1).storeMutex = false ∧ (KeyValueStore.new 1).Invariant ∧
    ∃ s1 s2, (KeyValueStore.new 1).put "thread_0_key_0" "value_0" = Outcome.ret () s1 ∧
      s1.get "thread_0_key_0" = Outcome.ret "value_0" s2 ∧
      s2.recency.head? = some "thread_0_key_0" :=
  ⟨rfl, KeyValueStore.invariant_new 1,
    put_get_round_trip (KeyValueStore.new 1) rfl (KeyValueStore.invariant_new 1)
      "thread_0_key_0" "value_0"⟩

/-- C7 fails when a present key stores the empty string: in the store holding only "k" with
value "", `get("k")` (present) and `get("z")` (absent) return the same result "". -/
theorem get_notFound_not_distinct :
    sampleEmptyValue.storeMutex = false ∧ sampleEmptyValue.Invariant ∧
    sampleEmptyValue.value "k" = some "" ∧
    sampleEmptyValue.value "z" = none ∧
    sampleEmptyValue.get "k" = Outcome.ret "" sampleEmptyValue ∧
    sampleEmptyValue.get "z" = Outcome.ret "" sampleEmptyValue :=
  ⟨rfl, ⟨by decide, by decide, by decide, by decide, by decide⟩, by decide, by decide,
    rfl, rfl⟩

/-- C7, amended (not-found is the empty string): on every state satisfying the invariant,
with the mutex free, `get` on every absent key returns the empty string and leaves the state
as it was; `get` on a present key returns the stored value, so the not-found result differs
from the result for every present key whose stored value is not the empty string, and
equals the result for a present key that stores the empty string. -/
theorem get_notFound_is_empty_string (s : KeyValueStore) (hfree : s.storeMutex = false)
    (hinv : s.Invariant) (k2 : String) (h2 : k2 ∉ s.store) :
    s.get k2 = Outcome.ret "" s ∧
    (∀ k1 v, s.value k1 = some v → v ≠ "" →
      ∃ r1 s1, s.get k1 = Outcome.ret r1 s1 ∧ r1 = v ∧ r1 ≠ "") ∧
    (∀ k1, s.value k1 = some "" → ∃ s1, s.get k1 = Outcome.ret "" s1) := by
  refine ⟨KeyValueStore.get_of_not_mem hfree h2, ?_, ?_⟩
  · intro k1 v h1 hv
    obtain ⟨it, hl⟩ := KeyValueStore.lookup_of_value h1
    exact ⟨v, _, KeyValueStore.get_of_lookup hfree hinv hl, rfl, hv⟩
  · intro k1 h1
    obtain ⟨it, hl⟩ := KeyValueStore.lookup_of_value h1
    exact ⟨_, KeyValueStore.get_of_lookup hfree hinv hl⟩

theorem get_notFound_is_empty_string_witness :
    sampleOneUser.storeMutex = false ∧ sampleOneUser.Invariant ∧
    "nonexistent" ∉ sampleOneUser.store ∧
    sampleOneUser.value "user1" = some "John Doe" ∧ "John Doe" ≠ "" ∧
    sampleOneUser.get "nonexistent" = Outcome.ret "" sampleOneUser ∧
    (∃ r1 s1, sampleOneUser.get "user1" = Outcome.ret r1 s1 ∧ r1 = "John Doe" ∧ r1 ≠ "") ∧
    (KeyValueStore.new 5).get "nonexistent" = Outcome.ret "" (KeyValueStore.new 5) :=
  ⟨rfl, ⟨by decide, by decide, by decide, by decide, by decide⟩, by decide, by decide,
    by decide,
    (get_notFound_is_empty_string sampleOneUser rfl
      ⟨by decide, by decide, by decide, by decide, by decide⟩ "nonexistent" (by decide)).1,
    (get_notFound_is_empty_string sampleOneUser rfl
      ⟨by decide, by decide, by decide, by decide, by decide⟩ "nonexistent"
      (by decide)).2.1 "user1" "John Doe" (by decide) (by decide),
    (get_notFound_is_empty_string (KeyValueStore.new 5) rfl (KeyValueStore.invariant_new 5)
      "nonexistent" (AList.not_mem_empty _)).1⟩

/-- C8 (exists is a pure membership test): called with the mutex free, `exists(k)` returns
`true` exactly when `k` is in the index and leaves the whole state (index, values,
`usageOrder`) as it was, so the next eviction removes the same key with or without the
call. -/
theorem exists_is_pure (s : KeyValueStore) (hfree : s.storeMutex = false) (k : String) :
    ∃ b, s.exists k = Outcome.ret b s ∧ (b = true ↔ k ∈ s.store) ∧
      ∀ s', (s.exists k).state? = some s' →
        s'.store = s.store ∧ s'.usageOrder = s.usageOrder ∧ s'.evictLRU = s.evictLRU := by
  refine ⟨(s.store.lookup k).isSome, KeyValueStore.exists_eq hfree k, AList.lookup_isSome, ?_⟩
  intro s' hs'
  rw [KeyValueStore.exists_eq hfree k] at hs'
  simp only [Outcome.state?, Option.some.injEq] at hs'
  subst hs'
  exact ⟨rfl, rfl, rfl⟩

theorem exists_is_pure_witness :
    sampleFull.storeMutex = false ∧
    ∃ b, sampleFull.exists "a" = Outcome.ret b sampleFull ∧
      (b = true ↔ "a" ∈ sampleFull.store) ∧
      ∀ s', (sampleFull.exists "a").state? = some s' →
        s'.store = sampleFull.store ∧ s'.usageOrder = sampleFull.usageOrder ∧
        s'.evictLRU = sampleFull.evictLRU :=
  ⟨rfl, exists_is_pure sampleFull rfl "a"⟩

/-- C9 (delete): on a state satisfying the invariant, with the mutex free, `del(k)` returns;
afterwards `k` is in neither the index nor `usageOrder`, every other key has the value it
had, `usageOrder` is the old one without `k` (the other keys in the same relative order),
`size()` is one less when `k` was present, and the state is unchanged when `k` was absent. -/
theorem del_removes_key (s : KeyValueStore) (hfree : s.storeMutex = false)
    (hinv : s.Invariant) (k : String) :
    ∃ s', s.del k = Outcome.ret () s' ∧
      k ∉ s'.store ∧ k ∉ s'.recency ∧
      (∀ k', k' ≠ k → s'.value k' = s.value k') ∧
      s'.recency = s.recency.filter (fun x => x != k) ∧
      (k ∈ s.store → s'.size + 1 = s.size) ∧
      (k ∉ s.store → s' = s) := by
  by_cases hk : k ∈ s.store
  · refine ⟨s.removed k, KeyValueStore.del_of_mem hfree hinv hk, ?_, ?_, ?_,
      KeyValueStore.recency_removed s k,
      fun _ => KeyValueStore.size_removed_of_mem hinv hk, fun h => absurd hk h⟩
    · show k ∉ s.store.erase k
      rw [AList.mem_erase]
      exact fun h => h.1 rfl
    · rw [KeyValueStore.recency_removed]
      simp
    · intro k' hne
      rw [KeyValueStore.value_removed, if_neg hne]
  · have hr : k ∉ s.recency := fun h => hk ((hinv.mem_iff k).2 h)
    exact ⟨s, KeyValueStore.del_of_not_mem hfree hk, hk, hr, fun _ _ => rfl,
      (KeyValueStore.filter_ne_of_not_mem hr).symm, fun h => absurd h hk, fun _ => rfl⟩

theorem del_removes_key_witness :
    sampleUsers.storeMutex = false ∧ sampleUsers.Invariant ∧
    ∃ s', sampleUsers.del "user2" = Outcome.ret () s' ∧
      "user2" ∉ s'.store ∧ "user2" ∉ s'.recency ∧
      (∀ k', k' ≠ "user2" → s'.value k' = sampleUsers.value k') ∧
      s'.recency = sampleUsers.recency.filter (fun x => x != "user2") ∧
      ("user2" ∈ sampleUsers.store → s'.size + 1 = sampleUsers.size) ∧
      ("user2" ∉ sampleUsers.store → s' = sampleUsers) :=
  ⟨rfl, ⟨by decide, by decide, by decide, by decide, by decide⟩,
    del_removes_key sampleUsers rfl
      ⟨by decide, by decide, by decide, by decide, by decide⟩ "user2"⟩

namespace KVStore

theorem substr_beq_iff_begins (k p : String) :
    (substr k 0 p.length == p) = true ↔ p.data <+: k.data := by
  rw [beq_iff_eq, String.ext_iff, List.prefix_iff_eq_take]
  show List.take p.data.length (List.drop 0 k.data) = p.data ↔ _
  rw [List.drop_zero]
  exact eq_comm

end KVStore

/-- C10 (prefix scan): called with the mutex free, `getKeysWithPrefix(p)` returns a list
without repetition whose members are exactly the keys of the store that begin with `p`, and
leaves the whole state as it was; so the empty prefix gives all keys and a prefix longer than
every key gives nothing. -/
theorem getKeysWithPrefix_scan (s : KeyValueStore) (hfree : s.storeMutex = false)
    (p : String) :
    ∃ r, s.getKeysWithPrefix p = Outcome.ret r s ∧
      r.Nodup ∧
      (∀ k, k ∈ r ↔ k ∈ s.store ∧ p.data <+: k.data) ∧
      (p = "" → ∀ k, k ∈ r ↔ k ∈ s.store) ∧
      ((∀ k, k ∈ s.store → k.length < p.length) → r = []) := by
  have hmem : ∀ k, k ∈ (s.store.entries.filter
      (fun e => substr e.1 0 p.length == p)).map Sigma.fst ↔
      k ∈ s.store ∧ p.data <+: k.data := by
    intro k
    rw [AList.mem_keys, AList.keys, List.keys, List.mem_map, List.mem_map]
    constructor
    · rintro ⟨e, he, rfl⟩
      obtain ⟨h1, h2⟩ := List.mem_filter.1 he
      exact ⟨⟨e, h1, rfl⟩, (substr_beq_iff_begins _ _).1 h2⟩
    · rintro ⟨⟨e, h1, rfl⟩, h2⟩
      exact ⟨e, List.mem_filter.2 ⟨h1, (substr_beq_iff_begins _ _).2 h2⟩, rfl⟩
  refine ⟨_, KeyValueStore.getKeysWithPrefix_eq hfree p, ?_, hmem, ?_, ?_⟩
  · exact s.store.keys_nodup.sublist ((List.filter_sublist _).map Sigma.fst)
  · intro hp k
    rw [hmem, hp]
    exact ⟨fun h => h.1, fun h => ⟨h, List.nil_prefix⟩⟩
  · intro hlong
    rw [List.eq_nil_iff_forall_not_mem]
    intro k hk
    obtain ⟨h1, h2⟩ := (hmem k).1 hk
    have := hlong k h1
    have hle := h2.length_le
    simp only [String.length] at this
    omega

theorem getKeysWithPrefix_scan_witness :
    samplePrefix.storeMutex = false ∧
    samplePrefix.getKeysWithPrefix "user" = Outcome.ret ["user23", "user1"] samplePrefix ∧
    ∃ r, samplePrefix.getKeysWithPrefix "user" = Outcome.ret r samplePrefix ∧
      r.Nodup ∧
      (∀ k, k ∈ r ↔ k ∈ samplePrefix.store ∧ "user".data <+: k.data) ∧
      ("user" = "" → ∀ k, k ∈ r ↔ k ∈ samplePrefix.store) ∧
      ((∀ k, k ∈ samplePrefix.store → k.length < "user".length) → r = []) :=
  ⟨rfl, rfl, getKeysWithPrefix_scan samplePrefix rfl "user"⟩


/-! ## Batches -/

namespace KeyValueStore

theorem lock_unlock {u : KeyValueStore} (hheld : u.storeMutex = true) :
    { ({ u with storeMutex := false } : KeyValueStore) with storeMutex := true } = u := by
  cases u; simp_all

theorem putBody_invariant {s : KeyValueStore} (h : s.Invariant) (k v : String) :
    ∃ s', putBody k v s = Outcome.ret () s' ∧ s'.Invariant ∧
      s'.storeMutex = s.storeMutex ∧ s'.maxSize = s.maxSize := by
  by_cases hk : k ∈ s.store
  · exact ⟨_, putBody_of_mem h hk v, invariant_promoted h k v, rfl, rfl⟩
  · exact ⟨_, putBody_of_not_mem h hk v, invariant_promoted (invariant_madeRoom h) k v,
      storeMutex_madeRoom s, maxSize_madeRoom s⟩

theorem delBody_invariant {s : KeyValueStore} (h : s.Invariant) (k : String) :
    ∃ s', delBody k s = Outcome.ret () s' ∧ s'.Invariant ∧
      s'.storeMutex = s.storeMutex ∧ s'.maxSize = s.maxSize := by
  cases hl : s.store.lookup k with
  | none => exact ⟨s, by simp [delBody, hl], h, rfl, rfl⟩
  | some e =>
    obtain ⟨v, it⟩ := e
    exact ⟨_, delBody_of_lookup h hl, invariant_removed h k, rfl, rfl⟩

theorem usageOrder_ne_nil_of_full_invariant {s : KeyValueStore} (h1 : 1 ≤ s.maxSize)
    (h2 : s.maxSize < 2 ^ 31) (h : s.Invariant)
    (hc : toSizeT s.maxSize ≤ s.store.entries.length) : s.usageOrder ≠ [] := by
  intro he
  have hcap : toSizeT s.maxSize = s.maxSize.toNat := toSizeT_of_int (by omega) h2
  have hsz : s.store.entries.length = s.recency.length := size_eq_length h
  rw [hcap, hsz, recency, he] at hc
  simp at hc
  omega

theorem batchApply_eq_applySequentially {n : Int} (h1 : 1 ≤ n) (h2 : n < 2 ^ 31)
    (ops : List Operation) :
    ∀ u : KeyValueStore, u.storeMutex = true → u.Invariant → u.maxSize = n →
      ∃ u', batchApply ops u = Outcome.ret () u' ∧ u'.storeMutex = true ∧
        applySequentially ops { u with storeMutex := false }
          = Outcome.ret () { u' with storeMutex := false } := by
  induction ops with
  | nil => intro u hheld _ _; exact ⟨u, rfl, hheld, rfl⟩
  | cons op ops ih =>
    intro u hheld hinv hmax
    by_cases hp : op.1 = "put"
    · obtain ⟨u1, e1, i1, m1, x1⟩ := putBody_invariant hinv op.2.1 op.2.2
      obtain ⟨u', e', m', s'⟩ := ih u1 (m1.trans hheld) i1 (x1.trans hmax)
      have hb : batchApplyOp op u = Outcome.ret () u1 := by
        rw [batchApplyOp_put hp
          (usageOrder_ne_nil_of_full_invariant (by omega) (by omega) hinv), e1]
      have hput : put { u with storeMutex := false } op.2.1 op.2.2
          = Outcome.ret () { u1 with storeMutex := false } := by
        apply lockGuard_of_ret rfl
        rw [lock_unlock hheld, e1]
      refine ⟨u', ?_, m', ?_⟩
      · simp only [batchApply, hb, e']
      · simp only [applySequentially, if_pos hp, hput, s']
    · by_cases hd : op.1 = "delete"
      · obtain ⟨u1, e1, i1, m1, x1⟩ := delBody_invariant hinv op.2.1
        obtain ⟨u', e', m', s'⟩ := ih u1 (m1.trans hheld) i1 (x1.trans hmax)
        have hb : batchApplyOp op u = Outcome.ret () u1 := by
          rw [batchApplyOp_delete hd, e1]
        have hdel : del { u with storeMutex := false } op.2.1
            = Outcome.ret () { u1 with storeMutex := false } := by
          apply lockGuard_of_ret rfl
          rw [lock_unlock hheld, e1]
        refine ⟨u', ?_, m', ?_⟩
        · simp only [batchApply, hb, e']
        · simp only [applySequentially, if_neg hp, if_pos hd, hdel, s']
      · obtain ⟨u', e', m', s'⟩ := ih u hheld hinv hmax
        refine ⟨u', ?_, m', ?_⟩
        · simp only [batchApply, batchApplyOp_other hp hd, e']
        · simp only [applySequentially, if_neg hp, if_neg hd, s']

/-- A batch without an operation named "get" returns `true` and leaves the state that the
standalone calls, made one after the other, leave. -/
theorem batchProcess_eq_applySequentially {s : KeyValueStore} (h1 : 1 ≤ s.maxSize)
    (h2 : s.maxSize < 2 ^ 31) (hfree : s.storeMutex = false) (hinv : s.Invariant)
    (ops : List Operation) (hg : ops.any (fun op => op.1 == "get") = false) :
    ∃ t, applySequentially ops s = Outcome.ret () t ∧
      s.batchProcess ops = Outcome.ret true t := by
  obtain ⟨u', e', _, s'⟩ :=
    batchApply_eq_applySequentially h1 h2 ops { s with storeMutex := true } rfl hinv rfl
  rw [unlock_lock hfree] at s'
  refine ⟨{ u' with storeMutex := false }, s', ?_⟩
  apply lockGuard_of_ret hfree
  unfold batchProcessBody
  rw [batchValidate_of_held rfl, if_neg (by simp [hg])]
  simp only [e']

end KeyValueStore

namespace KeyValueStore

theorem del_returns {s : KeyValueStore} (hfree : s.storeMutex = false) (h : s.Invariant)
    (k : String) :
    ∃ s1, s.del k = Outcome.ret () s1 ∧ s1.Invariant ∧ s1.storeMutex = false := by
  by_cases hk : k ∈ s.store
  · exact ⟨_, del_of_mem hfree h hk, invariant_removed h k, hfree⟩
  · exact ⟨s, del_of_not_mem hfree hk, h, hfree⟩

end KeyValueStore

/-- C11 (batch atomicity) evaluated on the code: on the store of `main` after its first
three puts, a batch with a "get" of the absent key "nonexistent" does not return `false`;
its validation loop calls `exists` while `batchProcess` holds `storeMutex`, and the call
never returns. -/
theorem batch_with_absent_get_never_returns :
    sampleUsers.storeMutex = false ∧ sampleUsers.Invariant ∧
    sampleUsers.value "nonexistent" = none ∧
    sampleUsers.batchProcess
        [("put", ("batch1", "Batch Value 1")), ("get", ("nonexistent", "")),
         ("delete", ("user1", ""))]
      = Outcome.deadlock :=
  ⟨rfl, ⟨by decide, by decide, by decide, by decide, by decide⟩, by decide, by decide⟩

/-- C12 (batch ordering): for every `int` capacity `maxSize >= 1` and every state satisfying
the invariant, with the mutex free, the batch `[put(k, "a"), delete(k)]` returns `true` and
leaves `k` absent, and the batch `[delete(k), put(k, "a")]` returns `true` and leaves `k`
present with value "a", whether or not `k` was present before. -/
theorem batch_ordering (s : KeyValueStore) (h1 : 1 ≤ s.maxSize) (h2 : s.maxSize < 2 ^ 31)
    (hfree : s.storeMutex = false) (hinv : s.Invariant) (k d : String) :
    (∃ s1, s.batchProcess [("put", (k, "a")), ("delete", (k, d))] = Outcome.ret true s1 ∧
      k ∉ s1.store ∧ s1.value k = none) ∧
    (∃ s2, s.batchProcess [("delete", (k, d)), ("put", (k, "a"))] = Outcome.ret true s2 ∧
      k ∈ s2.store ∧ s2.value k = some "a") := by
  have hnd : ("delete" : String) ≠ "put" := by decide
  constructor
  · obtain ⟨t, hseq, hbatch⟩ := KeyValueStore.batchProcess_eq_applySequentially h1 h2 hfree
      hinv [("put", (k, "a")), ("delete", (k, d))] rfl
    obtain ⟨s0, hput, hi0, hf0⟩ := KeyValueStore.put_returns hfree hinv k "a"
    have hi1 := KeyValueStore.invariant_promoted hi0 k "a"
    have hk1 : k ∈ (s0.promoted k "a").store :=
      AList.lookup_isSome.1 (by rw [KeyValueStore.lookup_promoted]; rfl)
    have hdel := KeyValueStore.del_of_mem (s := s0.promoted k "a") hf0 hi1 hk1
    simp only [applySequentially, if_pos, if_neg hnd, hput, hdel, Outcome.ret.injEq,
      true_and] at hseq
    subst hseq
    refine ⟨_, hbatch, ?_, ?_⟩
    · show k ∉ (s0.promoted k "a").store.erase k
      rw [AList.mem_erase]
      exact fun h => h.1 rfl
    · rw [KeyValueStore.value_removed, if_pos rfl]
  · obtain ⟨t, hseq, hbatch⟩ := KeyValueStore.batchProcess_eq_applySequentially h1 h2 hfree
      hinv [("delete", (k, d)), ("put", (k, "a"))] rfl
    obtain ⟨s1, hdel, hi1, hf1⟩ := KeyValueStore.del_returns hfree hinv k
    obtain ⟨s0, hput, _, _⟩ := KeyValueStore.put_returns hf1 hi1 k "a"
    simp only [applySequentially, if_pos, if_neg hnd, hput, hdel, Outcome.ret.injEq,
      true_and] at hseq
    subst hseq
    have hv : (s0.promoted k "a").value k = some "a" := by
      rw [KeyValueStore.value_promoted, if_pos rfl]
    exact ⟨_, hbatch, KeyValueStore.mem_of_value hv, hv⟩

theorem batch_ordering_witness :
    (1 : Int) ≤ sampleFull.maxSize ∧ sampleFull.maxSize < 2 ^ 31 ∧
    sampleFull.storeMutex = false ∧ sampleFull.Invariant ∧
    (∃ s1, sampleFull.batchProcess [("put", ("c", "a")), ("delete", ("c", ""))]
        = Outcome.ret true s1 ∧ "c" ∉ s1.store ∧ s1.value "c" = none) ∧
    (∃ s2, sampleFull.batchProcess [("delete", ("c", "")), ("put", ("c", "a"))]
        = Outcome.ret true s2 ∧ "c" ∈ s2.store ∧ s2.value "c" = some "a") :=
  ⟨by decide, by decide, rfl, ⟨by decide, by decide, by decide, by decide, by decide⟩,
    batch_ordering sampleFull (by decide) (by decide) rfl
      ⟨by decide, by decide, by decide, by decide, by decide⟩ "c" ""⟩

/-- C13 (batch equals sequential application) evaluated on the code: on a store holding "a",
the batch `[get("a"), put("c", "3")]`, whose "get" names a present key, does not return,
while the sequential reading (skip the "get", then the standalone put) ends with "c" and
"b" in the store. -/
theorem batch_with_present_get_never_returns :
    sampleFull.storeMutex = false ∧ sampleFull.Invariant ∧
    (1 : Int) ≤ sampleFull.maxSize ∧
    sampleFull.value "a" = some "1" ∧
    sampleFull.batchProcess [("get", ("a", "")), ("put", ("c", "3"))] = Outcome.deadlock ∧
    (applySequentially [("get", ("a", "")), ("put", ("c", "3"))] sampleFull).state?.map
        KeyValueStore.recency = some ["c", "b"] :=
  ⟨rfl, ⟨by decide, by decide, by decide, by decide, by decide⟩, by decide, by decide,
    by decide, by decide⟩

/-- C18 (no lock re-acquisition inside batch) evaluated on the code: the validation loop of
`batchProcess` calls the public `exists` for an operation named "get"; called on a store
whose mutex is held, `exists` never returns, and so the batch `[get("user1")]` on the store of
`main`, where "user1" is present, never returns. -/
theorem batch_get_relocks_mutex :
    sampleUsers.storeMutex = false ∧
    sampleUsers.value "user1" = some "John Doe" ∧
    KeyValueStore.batchValidate [("get", ("user1", ""))]
        { sampleUsers with storeMutex := true } = Outcome.deadlock ∧
    KeyValueStore.exists { sampleUsers with storeMutex := true } "user1"
      = Outcome.deadlock ∧
    sampleUsers.batchProcess [("get", ("user1", ""))] = Outcome.deadlock :=
  ⟨rfl, by decide, by decide, by decide, by decide⟩

/-! ## Negative capacity -/

namespace KVStore

theorem toSizeT_of_neg {n : Int} (h0 : n < 0) (h1 : -2 ^ 31 ≤ n) :
    2 ^ 64 - 2 ^ 31 ≤ toSizeT n := by
  unfold toSizeT
  have : n % 2 ^ 64 = n + 2 ^ 64 := by omega
  rw [this]
  omega

end KVStore

namespace KeyValueStore

theorem madeRoom_of_lt {s : KeyValueStore} (h : s.store.entries.length < toSizeT s.maxSize) :
    s.madeRoom = s := by
  unfold madeRoom
  rw [if_neg (by omega)]

end KeyValueStore

theorem putAll_negative {n : Int} (h0 : n < 0) (h1 : -2 ^ 31 ≤ n)
    (kvs : List (String × String)) (hd : (kvs.map Prod.fst).Nodup)
    (hm : kvs.length < 2 ^ 63) :
    ∃ s, putAll kvs (KeyValueStore.new n) = some s ∧ s.Invariant ∧
      s.storeMutex = false ∧ s.maxSize = n ∧
      s.recency = (kvs.map Prod.fst).reverse ∧
      ∀ kv ∈ kvs, s.value kv.1 = some kv.2 := by
  induction kvs using List.reverseRecOn with
  | nil =>
    exact ⟨KeyValueStore.new n, rfl, KeyValueStore.invariant_new n, rfl, rfl, rfl,
      fun kv hkv => by cases hkv⟩
  | append_singleton kvs kv ih =>
    rw [List.map_append, List.nodup_append] at hd
    obtain ⟨hd1, _, hdis⟩ := hd
    have hnew : kv.1 ∉ kvs.map Prod.fst := fun hm => hdis hm (by simp)
    have hlen : kvs.length < 2 ^ 63 := by
      rw [List.length_append] at hm
      omega
    obtain ⟨s, hs, hinv, hfree, hmax, hrec, hval⟩ := ih hd1 hlen
    have hk : kv.1 ∉ s.store := by
      rw [hinv.mem_iff, hrec, List.mem_reverse]
      exact hnew
    have hroom : s.madeRoom = s := by
      apply KeyValueStore.madeRoom_of_lt
      have hsz : s.store.entries.length = s.recency.length :=
        KeyValueStore.size_eq_length hinv
      have hcap := toSizeT_of_neg h0 h1
      rw [hmax, hsz, hrec, List.length_reverse, List.length_map]
      omega
    have hput := KeyValueStore.put_of_not_mem hfree hinv hk kv.2
    rw [hroom] at hput
    refine ⟨s.promoted kv.1 kv.2, ?_, KeyValueStore.invariant_promoted hinv _ _, hfree, hmax,
      ?_, ?_⟩
    · rw [putAll_append, hs]
      simp only [Option.bind, putAll, hput]
    · rw [KeyValueStore.recency_promoted, KeyValueStore.filter_ne_of_not_mem
        (fun h => hk ((hinv.mem_iff _).2 h)), hrec]
      simp
    · intro kv' hkv'
      rw [KeyValueStore.value_promoted]
      rcases List.mem_append.1 hkv' with hin | hin
      · have hne : kv'.1 ≠ kv.1 := fun he => hnew (he ▸ List.mem_map_of_mem Prod.fst hin)
        rw [if_neg hne]
        exact hval kv' hin
      · have : kv' = kv := by simpa using hin
        subst this
        rw [if_pos rfl]

/-- C20 (negative capacity disables eviction): for every negative `int` `maxSize` and every
list of `m < 2^63` pairs with pairwise distinct keys put in order into an empty store, every
put returns, `size()` is `j` after the `j`-th put for every `j <= m` (no put evicts), and at
the end all `m` keys are in the store with the values they were put with, `get` returning
that value. -/
theorem negative_capacity_never_evicts (maxSize : Int) (h0 : maxSize < 0)
    (h1 : -2 ^ 31 ≤ maxSize) (kvs : List (String × String))
    (hd : (kvs.map Prod.fst).Nodup) (hm : kvs.length < 2 ^ 63) :
    (∀ j, j ≤ kvs.length →
      ∃ sj, putAll (kvs.take j) (KeyValueStore.new maxSize) = some sj ∧ sj.size = j) ∧
    ∃ s, putAll kvs (KeyValueStore.new maxSize) = some s ∧
      s.size = kvs.length ∧
      ∀ kv ∈ kvs, s.value kv.1 = some kv.2 ∧ ∃ s', s.get kv.1 = Outcome.ret kv.2 s' := by
  constructor
  · intro j hj
    have hdj : ((kvs.take j).map Prod.fst).Nodup :=
      hd.sublist ((List.take_sublist j kvs).map Prod.fst)
    have hmj : (kvs.take j).length < 2 ^ 63 := by
      rw [List.length_take]; omega
    obtain ⟨sj, hs, hinv, _, _, hrec, _⟩ := putAll_negative h0 h1 (kvs.take j) hdj hmj
    refine ⟨sj, hs, ?_⟩
    rw [KeyValueStore.size_eq_length hinv, hrec, List.length_reverse, List.length_map,
      List.length_take]
    omega
  · obtain ⟨s, hs, hinv, hfree, _, hrec, hval⟩ := putAll_negative h0 h1 kvs hd hm
    refine ⟨s, hs, ?_, ?_⟩
    · rw [KeyValueStore.size_eq_length hinv, hrec, List.length_reverse, List.length_map]
    · intro kv hkv
      obtain ⟨it, hl⟩ := KeyValueStore.lookup_of_value (hval kv hkv)
      exact ⟨hval kv hkv, _, KeyValueStore.get_of_lookup hfree hinv hl⟩

theorem negative_capacity_never_evicts_witness :
    (-1 : Int) < 0 ∧ (-2 ^ 31 : Int) ≤ -1 ∧ (lruDemo.map Prod.fst).Nodup ∧
    lruDemo.length < 2 ^ 63 ∧
    (∀ j, j ≤ lruDemo.length →
      ∃ sj, putAll (lruDemo.take j) (KeyValueStore.new (-1)) = some sj ∧ sj.size = j) ∧
    ∃ s, putAll lruDemo (KeyValueStore.new (-1)) = some s ∧
      s.size = lruDemo.length ∧
      ∀ kv ∈ lruDemo, s.value kv.1 = some kv.2 ∧ ∃ s', s.get kv.1 = Outcome.ret kv.2 s' :=
  ⟨by decide, by decide, by decide, by decide,
    negative_capacity_never_evicts (-1) (by decide) (by decide) lruDemo (by decide)
      (by decide)⟩

/-! ## Decimal numbers and lines -/

namespace IStream

theorem digitChar_isDigit : ∀ m, m < 10 →
    (Nat.digitChar m).isDigit = true ∧ (Nat.digitChar m).toNat - '0'.toNat = m := by
  decide

theorem not_special_of_isDigit {c : Char} (h : c.isDigit = true) :
    isSpace c = false ∧ (c == '-') = false ∧ (c == '+') = false := by
  have hne : ∀ d : Char, d.isDigit = false → (c == d) = false := by
    intro d hd
    rw [beq_eq_false_iff_ne]
    rintro rfl
    rw [h] at hd
    cases hd
  unfold isSpace
  rw [hne ' ' (by decide), hne '\t' (by decide), hne '\n' (by decide), hne '\x0b' (by decide),
    hne '\x0c' (by decide), hne '\r' (by decide), hne '-' (by decide), hne '+' (by decide)]
  exact ⟨rfl, rfl, rfl⟩

theorem toDigitsCore_spec (fuel : Nat) : ∀ (n : Nat) (ds : List Char), n < fuel →
    ∃ pre, Nat.toDigitsCore 10 fuel n ds = pre ++ ds ∧ (∀ c ∈ pre, c.isDigit = true) ∧
      pre ≠ [] ∧ pre.foldl (fun a c => a * 10 + (c.toNat - '0'.toNat)) 0 = n := by
  induction fuel with
  | zero => intro n ds h; omega
  | succ fuel ih =>
    intro n ds h
    have hd := digitChar_isDigit (n % 10) (Nat.mod_lt _ (by decide))
    by_cases hq : n / 10 = 0
    · refine ⟨[Nat.digitChar (n % 10)], by simp [Nat.toDigitsCore, hq], ?_, by simp, ?_⟩
      · intro c hc
        rw [List.mem_singleton] at hc
        rw [hc]; exact hd.1
      · simp only [List.foldl_cons, List.foldl_nil, Nat.zero_mul, Nat.zero_add]
        rw [hd.2]
        omega
    · obtain ⟨pre, e, hall, _, hv⟩ := ih (n / 10) (Nat.digitChar (n % 10) :: ds) (by omega)
      refine ⟨pre ++ [Nat.digitChar (n % 10)], by simp [Nat.toDigitsCore, hq, e], ?_,
        by simp, ?_⟩
      · intro c hc
        rcases List.mem_append.1 hc with h1 | h1
        · exact hall c h1
        · rw [List.mem_singleton] at h1
          rw [h1]; exact hd.1
      · rw [List.foldl_append, hv]
        simp only [List.foldl_cons, List.foldl_nil]
        rw [hd.2]
        omega

theorem readDigits_append (pre : List Char) (hall : ∀ c ∈ pre, c.isDigit = true)
    (rest : List Char) : ∀ acc : Nat,
    readDigits (pre ++ '\n' :: rest) acc
      = (pre.foldl (fun a c => a * 10 + (c.toNat - '0'.toNat)) acc, '\n' :: rest) := by
  induction pre with
  | nil =>
    intro acc
    have : ('\n' : Char).isDigit = false := by decide
    simp [readDigits, this]
  | cons c cs ih =>
    intro acc
    have hc : c.isDigit = true := hall c (List.mem_cons_self _ _)
    simp only [List.cons_append, readDigits, hc, if_true, List.foldl_cons]
    exact ih (fun d hd => hall d (List.mem_cons_of_mem _ hd)) _

theorem readSizeT_toDigits (n : Nat) (hn : n < 2 ^ 64) (rest : List Char) :
    readSizeT { rest := Nat.toDigits 10 n ++ '\n' :: rest, good := true }
      = (some n, { rest := '\n' :: rest, good := true }) := by
  obtain ⟨pre, e, hall, hne, hv⟩ := toDigitsCore_spec (n + 1) n [] (by omega)
  rw [List.append_nil] at e
  have et : Nat.toDigits 10 n = pre := e
  rw [et]
  obtain ⟨c, cs, rfl⟩ := List.exists_cons_of_ne_nil hne
  have hc : c.isDigit = true := hall c (List.mem_cons_self _ _)
  obtain ⟨h1, h2, h3⟩ := not_special_of_isDigit hc
  have hr := readDigits_append (c :: cs) hall rest 0
  rw [hv] at hr
  simp only [List.cons_append] at hr
  simp only [readSizeT, Bool.not_true, Bool.false_eq_true, if_false, List.cons_append,
    List.dropWhile_cons, h1, h2, h3, Bool.or_self, hc, if_true, hr]
  rw [if_neg (by omega)]
  simp

theorem getline_line (x : String) (hx : '\n' ∉ x.data) (rest : List Char) :
    getline { rest := x.data ++ '\n' :: rest, good := true }
      = (x, { rest := rest, good := true }) := by
  have hall : ∀ c ∈ x.data, (c != '\n') = true := by
    intro c hc
    rw [bne_iff_ne]
    rintro rfl
    exact hx hc
  have hd : (x.data ++ '\n' :: rest).dropWhile (fun c => c != '\n') = '\n' :: rest := by
    rw [List.dropWhile_append_of_pos hall]
    simp
  have ht : (x.data ++ '\n' :: rest).takeWhile (fun c => c != '\n') = x.data := by
    rw [List.takeWhile_append_of_pos hall]
    simp
  simp only [getline, Bool.not_true, Bool.false_eq_true, if_false, hd, ht]

end IStream

/-! ## Saving and loading -/

namespace KeyValueStore

theorem loadEntries_entryLines (entries : List (String × String))
    (hk : ∀ kv ∈ entries, newlineFree kv.1 ∧ newlineFree kv.2) :
    ∀ s : KeyValueStore,
      loadEntries entries.length { rest := entryLines entries, good := true } s
        = insertAll entries s := by
  induction entries with
  | nil => intro s; rfl
  | cons kv kvs ih =>
    intro s
    obtain ⟨h1, h2⟩ := hk kv (List.mem_cons_self _ _)
    simp only [List.length_cons, loadEntries, entryLines, IStream.getline_line kv.1 h1,
      IStream.getline_line kv.2 h2, insertAll, List.foldl_cons]
    exact ih (fun kv' h => hk kv' (List.mem_cons_of_mem _ h)) _

theorem insertAll_append (a b : List (String × String)) (s : KeyValueStore) :
    insertAll (a ++ b) s = insertAll b (insertAll a s) := by
  simp [insertAll, List.foldl_append]

theorem insertAll_spec (entries : List (String × String))
    (hd : (entries.map Prod.fst).Nodup) (c : KeyValueStore) (hu : c.usageOrder = [])
    (hs : c.store = ∅) :
    (insertAll entries c).Invariant ∧
    (insertAll entries c).recency = (entries.map Prod.fst).reverse ∧
    (∀ kv ∈ entries, (insertAll entries c).value kv.1 = some kv.2) ∧
    (insertAll entries c).maxSize = c.maxSize ∧
    (insertAll entries c).storeMutex = c.storeMutex := by
  induction entries using List.reverseRecOn with
  | nil =>
    refine ⟨?_, ?_, ?_, rfl, rfl⟩
    · simp [insertAll, Invariant, hu, hs]
    · simp [insertAll, recency, hu]
    · intro kv hkv
      cases hkv
  | append_singleton kvs kv ih =>
    rw [List.map_append, List.nodup_append] at hd
    obtain ⟨hd1, _, hdis⟩ := hd
    have hnew : kv.1 ∉ kvs.map Prod.fst := fun hm => hdis hm (by simp)
    obtain ⟨hinv, hrec, hval, hmax, hmut⟩ := ih hd1
    have hnr : kv.1 ∉ (insertAll kvs c).recency := by
      rw [hrec, List.mem_reverse]; exact hnew
    have hstep : insertAll (kvs ++ [kv]) c = (insertAll kvs c).promoted kv.1 kv.2 := by
      rw [insertAll_append, ← insertFront_eq_promoted hnr]
      rfl
    rw [hstep]
    refine ⟨invariant_promoted hinv _ _, ?_, ?_, hmax, hmut⟩
    · rw [recency_promoted, filter_ne_of_not_mem hnr, hrec]
      simp
    · intro kv' hkv'
      rw [value_promoted]
      rcases List.mem_append.1 hkv' with hin | hin
      · have hne : kv'.1 ≠ kv.1 := fun he => hnew (he ▸ List.mem_map_of_mem Prod.fst hin)
        rw [if_neg hne]
        exact hval kv' hin
      · have : kv' = kv := by simpa using hin
        subst this
        rw [if_pos rfl]

theorem saveEntries_entryLines (st : AList (fun _ : String => Entry)) :
    ∀ (l : List Node) (entries : List (String × String)),
      entries.map Prod.fst = l.map Prod.snd →
      (∀ kv ∈ entries, (st.lookup kv.1).map Prod.fst = some kv.2) →
      saveEntries l st = (entryLines entries, st) := by
  intro l
  induction l with
  | nil =>
    intro entries he _
    have : entries = [] := by simpa using he
    subst this
    rfl
  | cons n ns ih =>
    intro entries he hv
    cases entries with
    | nil => simp at he
    | cons kv kvs =>
      simp only [List.map_cons, List.cons.injEq] at he
      obtain ⟨hk, hrest⟩ := he
      have h1 := hv kv (List.mem_cons_self _ _)
      rw [hk] at h1
      cases hl : st.lookup n.2 with
      | none => rw [hl] at h1; cases h1
      | some e =>
        obtain ⟨v, it⟩ := e
        rw [hl] at h1
        have hv' : v = kv.2 := by simpa using h1
        have hrec := ih kvs hrest (fun kv' h => hv kv' (List.mem_cons_of_mem _ h))
        simp only [saveEntries, hl, hrec, entryLines, hk, hv']

theorem saveToDisk_eq {s : KeyValueStore} (hfree : s.storeMutex = false) (hinv : s.Invariant)
    (entries : List (String × String)) (hk : entries.map Prod.fst = s.recency)
    (hv : ∀ kv ∈ entries, s.value kv.1 = some kv.2) :
    s.saveToDisk true = Outcome.ret (true, some (snapshotText entries)) s := by
  have hlen : s.store.entries.length = entries.length := by
    have h1 : s.store.entries.length = s.recency.length := size_eq_length hinv
    rw [h1, ← hk, List.length_map]
  have hse := saveEntries_entryLines s.store s.usageOrder entries hk hv
  have hb : saveToDiskBody true { s with storeMutex := true }
      = Outcome.ret (true, some (snapshotText entries)) { s with storeMutex := true } := by
    simp only [saveToDiskBody, Bool.not_true, Bool.false_eq_true, if_false, hse, hlen,
      snapshotText]
  unfold saveToDisk
  rw [lockGuard_of_ret hfree hb, unlock_lock hfree]

theorem loadFromDisk_snapshotText {t : KeyValueStore} (hfree : t.storeMutex = false)
    (entries : List (String × String)) (hn : entries.length < 2 ^ 64)
    (hk : ∀ kv ∈ entries, newlineFree kv.1 ∧ newlineFree kv.2) :
    t.loadFromDisk (some (snapshotText entries))
      = Outcome.ret true
          { (insertAll entries
              { t with storeMutex := true, store := ∅, usageOrder := [] })
            with storeMutex := false } := by
  unfold loadFromDisk
  apply lockGuard_of_ret hfree
  simp only [loadFromDiskBody, snapshotText, IStream.readSizeT_toDigits _ hn, IStream.ignore,
    Bool.not_true, Bool.false_eq_true, if_false, loadEntries_entryLines entries hk]

theorem loadFromDisk_discards {t : KeyValueStore} (hfree : t.storeMutex = false)
    (text : String) :
    t.loadFromDisk (some text) = (new t.maxSize).loadFromDisk (some text) := by
  unfold loadFromDisk lockGuard
  rw [if_neg (by simp [hfree]), if_neg (by simp [new])]
  rfl

end KeyValueStore

namespace KeyValueStore

theorem value_of_not_mem {s : KeyValueStore} {k : String} (h : k ∉ s.store) :
    s.value k = none := by
  unfold value
  rw [AList.lookup_eq_none.2 h]
  rfl

theorem loadFromDisk_spec {t : KeyValueStore} (hfree : t.storeMutex = false)
    (entries : List (String × String)) (hd : (entries.map Prod.fst).Nodup)
    (hk : ∀ kv ∈ entries, newlineFree kv.1 ∧ newlineFree kv.2)
    (hn : entries.length < 2 ^ 64) :
    ∃ t', t.loadFromDisk (some (snapshotText entries)) = Outcome.ret true t' ∧
      t'.Invariant ∧ t'.recency = (entries.map Prod.fst).reverse ∧
      (∀ kv ∈ entries, t'.value kv.1 = some kv.2) ∧ t'.maxSize = t.maxSize := by
  obtain ⟨hinv, hrec, hval, hmax, _⟩ := insertAll_spec entries hd
    { t with storeMutex := true, store := ∅, usageOrder := [] } rfl rfl
  exact ⟨_, loadFromDisk_snapshotText hfree entries hn hk, hinv, hrec, hval, hmax⟩

end KeyValueStore

/-- C14 (snapshot round trip): for every state satisfying the invariant, with the mutex free,
whose keys and values hold no newline (and whose `size()` is a `size_t`), `saveToDisk`
returns `true` and writes a text, and `loadFromDisk` of that text into a fresh store of any
capacity returns `true` and leaves a store with the same value for every key (the same set
of key/value pairs) and the same `size()`. -/
theorem snapshot_round_trip (s : KeyValueStore) (hfree : s.storeMutex = false)
    (hinv : s.Invariant) (hsz : s.size < 2 ^ 64)
    (hkeys : ∀ k ∈ s.recency, newlineFree k)
    (hvals : ∀ k v, s.value k = some v → newlineFree v) (N : Int) :
    ∃ text t', s.saveToDisk true = Outcome.ret (true, some text) s ∧
      (KeyValueStore.new N).loadFromDisk (some text) = Outcome.ret true t' ∧
      (∀ k, t'.value k = s.value k) ∧ t'.size = s.size := by
  have hsome : ∀ k ∈ s.recency, ∃ v, s.value k = some v := by
    intro k hk
    have hm : k ∈ s.store := (hinv.mem_iff k).2 hk
    obtain ⟨e, he⟩ := Option.isSome_iff_exists.1 (AList.lookup_isSome.2 hm)
    exact ⟨e.1, by simp [KeyValueStore.value, he]⟩
  have hmapfst : (s.recency.map (fun k => (k, (s.value k).getD ""))).map Prod.fst
      = s.recency := by
    rw [List.map_map]
    exact List.map_id'' (fun _ => rfl) _
  have hv : ∀ kv ∈ s.recency.map (fun k => (k, (s.value k).getD "")),
      s.value kv.1 = some kv.2 := by
    intro kv hkv
    obtain ⟨k, hk, rfl⟩ := List.mem_map.1 hkv
    obtain ⟨v, hv⟩ := hsome k hk
    simp [hv]
  have hnl : ∀ kv ∈ s.recency.map (fun k => (k, (s.value k).getD "")),
      newlineFree kv.1 ∧ newlineFree kv.2 := by
    intro kv hkv
    have h2 := hv kv hkv
    obtain ⟨k, hk, rfl⟩ := List.mem_map.1 hkv
    exact ⟨hkeys k hk, hvals k _ h2⟩
  have hlen : (s.recency.map (fun k => (k, (s.value k).getD ""))).length < 2 ^ 64 := by
    rw [List.length_map, ← KeyValueStore.size_eq_length hinv]
    exact hsz
  have hd : ((s.recency.map (fun k => (k, (s.value k).getD ""))).map Prod.fst).Nodup := by
    rw [hmapfst]; exact hinv.nodup
  obtain ⟨t', hload, hinv', hrec', hval', _⟩ :=
    KeyValueStore.loadFromDisk_spec (t := KeyValueStore.new N) rfl _ hd hnl hlen
  refine ⟨_, t', KeyValueStore.saveToDisk_eq hfree hinv _ hmapfst hv, hload, ?_, ?_⟩
  · intro k
    by_cases hk : k ∈ s.recency
    · have hmem : (k, (s.value k).getD "") ∈
          s.recency.map (fun k => (k, (s.value k).getD "")) :=
        List.mem_map_of_mem _ hk
      exact (hval' _ hmem).trans (hv _ hmem).symm
    · have h1 : k ∉ s.store := fun h => hk ((hinv.mem_iff k).1 h)
      have h2 : k ∉ t'.store := by
        rw [hinv'.mem_iff, hrec', hmapfst, List.mem_reverse]
        exact hk
      rw [KeyValueStore.value_of_not_mem h1, KeyValueStore.value_of_not_mem h2]
  · rw [KeyValueStore.size_eq_length hinv', KeyValueStore.size_eq_length hinv, hrec',
      hmapfst, List.length_reverse]

theorem snapshot_round_trip_witness :
    sampleUsers.storeMutex = false ∧ sampleUsers.Invariant ∧ sampleUsers.size < 2 ^ 64 ∧
    (∀ k ∈ sampleUsers.recency, newlineFree k) ∧
    (∀ k v, sampleUsers.value k = some v → newlineFree v) ∧
    ∃ text t', sampleUsers.saveToDisk true = Outcome.ret (true, some text) sampleUsers ∧
      (KeyValueStore.new 100).loadFromDisk (some text) = Outcome.ret true t' ∧
      (∀ k, t'.value k = sampleUsers.value k) ∧ t'.size = sampleUsers.size :=
  have hk : ∀ k ∈ sampleUsers.recency, newlineFree k := by
    unfold newlineFree; decide
  have hv : ∀ k v, sampleUsers.value k = some v → newlineFree v := by
    intro k v h
    have hm : k ∈ sampleUsers.recency := by
      have := KeyValueStore.mem_of_value h
      exact (KeyValueStore.Invariant.mem_iff
        ⟨by decide, by decide, by decide, by decide, by decide⟩ k).1 this
    have hall : ∀ k ∈ sampleUsers.recency, ∀ v, sampleUsers.value k = some v →
        newlineFree v := by
      unfold newlineFree
      intro k hk
      simp only [KeyValueStore.recency, sampleUsers, List.map_cons, List.map_nil,
        List.mem_cons, List.mem_singleton, List.not_mem_nil, or_false] at hk
      rcases hk with rfl | rfl | rfl <;> intro v hv <;>
        · have hv' : some _ = some v := hv
          cases hv'
          decide
    exact hall k hm v h
  ⟨rfl, ⟨by decide, by decide, by decide, by decide, by decide⟩, by decide, hk, hv,
    snapshot_round_trip sampleUsers rfl
      ⟨by decide, by decide, by decide, by decide, by decide⟩ (by decide) hk hv 100⟩

/-- C15 (snapshot encoding): for every state satisfying the invariant, with the mutex free,
whose `usageOrder` holds the keys `k_1 .. k_n` (most recently used first) with values
`v_1 .. v_n`, `saveToDisk` on a file that opens returns `true`, leaves the state as it was,
and writes the decimal representation of `n`, a newline, and then for each `i` in that order
`k_i`, newline, `v_i`, newline. -/
theorem saveToDisk_encoding (s : KeyValueStore) (hfree : s.storeMutex = false)
    (hinv : s.Invariant) (entries : List (String × String))
    (hk : entries.map Prod.fst = s.recency)
    (hv : ∀ kv ∈ entries, s.value kv.1 = some kv.2) :
    s.saveToDisk true = Outcome.ret (true, some (snapshotText entries)) s ∧
    (snapshotText entries).data
      = (Nat.repr entries.length).data ++ '\n' :: entryLines entries :=
  ⟨KeyValueStore.saveToDisk_eq hfree hinv entries hk hv, rfl⟩

theorem saveToDisk_encoding_witness :
    sampleUsers.storeMutex = false ∧ sampleUsers.Invariant ∧
    sampleEntries.map Prod.fst = sampleUsers.recency ∧
    (∀ kv ∈ sampleEntries, sampleUsers.value kv.1 = some kv.2) ∧
    snapshotText sampleEntries
      = "3\nuser3\nBob Johnson\nuser2\nJane Smith\nuser1\nJohn Doe\n" ∧
    (sampleUsers.saveToDisk true
        = Outcome.ret (true, some (snapshotText sampleEntries)) sampleUsers ∧
      (snapshotText sampleEntries).data
        = (Nat.repr sampleEntries.length).data ++ '\n' :: entryLines sampleEntries) :=
  ⟨rfl, ⟨by decide, by decide, by decide, by decide, by decide⟩, by decide, by decide,
    by decide,
    saveToDisk_encoding sampleUsers rfl
      ⟨by decide, by decide, by decide, by decide, by decide⟩ sampleEntries (by decide)
      (by decide)⟩

/-- C16 (load reverses file order): for every well-formed snapshot listing entries with
pairwise distinct keys, keys and values without newline (the count being a `size_t`),
`loadFromDisk` called with the mutex free on a store of any content returns `true` and
leaves `usageOrder` holding the keys in the reverse of file order (last entry read first),
each key with its value and no other key: the state is the one that loading into an empty
store of the same capacity gives.  So when the snapshot is what `saveToDisk` wrote for a
state `s`, the loaded recency order is the reverse of that of `s`. -/
theorem loadFromDisk_reverses_file_order (t : KeyValueStore) (hfree : t.storeMutex = false)
    (entries : List (String × String)) (hd : (entries.map Prod.fst).Nodup)
    (hnl : ∀ kv ∈ entries, newlineFree kv.1 ∧ newlineFree kv.2)
    (hn : entries.length < 2 ^ 64) :
    ∃ t', t.loadFromDisk (some (snapshotText entries)) = Outcome.ret true t' ∧
      t'.recency = (entries.map Prod.fst).reverse ∧
      (∀ k, k ∈ t'.store ↔ k ∈ entries.map Prod.fst) ∧
      (∀ kv ∈ entries, t'.value kv.1 = some kv.2) ∧
      (KeyValueStore.new t.maxSize).loadFromDisk (some (snapshotText entries))
        = Outcome.ret true t' ∧
      ∀ s : KeyValueStore, s.storeMutex = false → s.Invariant →
        entries.map Prod.fst = s.recency → (∀ kv ∈ entries, s.value kv.1 = some kv.2) →
        s.saveToDisk true = Outcome.ret (true, some (snapshotText entries)) s ∧
        t'.recency = s.recency.reverse := by
  obtain ⟨t', hload, hinv', hrec', hval', _⟩ :=
    KeyValueStore.loadFromDisk_spec hfree entries hd hnl hn
  refine ⟨t', hload, hrec', ?_, hval', ?_, ?_⟩
  · intro k
    rw [hinv'.mem_iff, hrec', List.mem_reverse]
  · rw [← KeyValueStore.loadFromDisk_discards hfree]
    exact hload
  · intro s hsfree hsinv hk hv
    exact ⟨KeyValueStore.saveToDisk_eq hsfree hsinv entries hk hv, by rw [hrec', hk]⟩

theorem loadFromDisk_reverses_file_order_witness :
    sampleFull.storeMutex = false ∧ (sampleEntries.map Prod.fst).Nodup ∧
    (∀ kv ∈ sampleEntries, newlineFree kv.1 ∧ newlineFree kv.2) ∧
    sampleEntries.length < 2 ^ 64 ∧
    ∃ t', sampleFull.loadFromDisk (some (snapshotText sampleEntries))
        = Outcome.ret true t' ∧
      t'.recency = (sampleEntries.map Prod.fst).reverse ∧
      (∀ k, k ∈ t'.store ↔ k ∈ sampleEntries.map Prod.fst) ∧
      (∀ kv ∈ sampleEntries, t'.value kv.1 = some kv.2) ∧
      (KeyValueStore.new sampleFull.maxSize).loadFromDisk (some (snapshotText sampleEntries))
        = Outcome.ret true t' ∧
      ∀ s : KeyValueStore, s.storeMutex = false → s.Invariant →
        sampleEntries.map Prod.fst = s.recency →
        (∀ kv ∈ sampleEntries, s.value kv.1 = some kv.2) →
        s.saveToDisk true = Outcome.ret (true, some (snapshotText sampleEntries)) s ∧
        t'.recency = s.recency.reverse :=
  ⟨rfl, by decide, by unfold newlineFree; decide, by decide,
    loadFromDisk_reverses_file_order sampleFull rfl sampleEntries (by decide)
      (by unfold newlineFree; decide) (by decide)⟩

/-- C17 (load bypasses the capacity bound): for every store, whatever its `maxSize`, and
every well-formed snapshot with `n` entries whose keys are pairwise distinct, keys and values
without newline (`n` being a `size_t`), `loadFromDisk` called with the mutex free returns
`true` and leaves `size() = n` and `maxSize` unchanged; so `size()` exceeds `maxSize` when
`n > maxSize`. -/
theorem loadFromDisk_bypasses_capacity (t : KeyValueStore) (hfree : t.storeMutex = false)
    (entries : List (String × String)) (hd : (entries.map Prod.fst).Nodup)
    (hnl : ∀ kv ∈ entries, newlineFree kv.1 ∧ newlineFree kv.2)
    (hn : entries.length < 2 ^ 64) :
    ∃ t', t.loadFromDisk (some (snapshotText entries)) = Outcome.ret true t' ∧
      t'.size = entries.length ∧ t'.maxSize = t.maxSize ∧
      (t.maxSize < (entries.length : Int) → t'.maxSize < (t'.size : Int)) := by
  obtain ⟨t', hload, hinv', hrec', _, hmax'⟩ :=
    KeyValueStore.loadFromDisk_spec hfree entries hd hnl hn
  have hsize : t'.size = entries.length := by
    rw [KeyValueStore.size_eq_length hinv', hrec', List.length_reverse, List.length_map]
  refine ⟨t', hload, hsize, hmax', ?_⟩
  intro h
  rw [hmax', hsize]
  exact h

theorem loadFromDisk_bypasses_capacity_witness :
    sampleOnlyA.storeMutex = false ∧ (sampleEntries.map Prod.fst).Nodup ∧
    (∀ kv ∈ sampleEntries, newlineFree kv.1 ∧ newlineFree kv.2) ∧
    sampleEntries.length < 2 ^ 64 ∧
    sampleOnlyA.maxSize < (sampleEntries.length : Int) ∧
    ∃ t', sampleOnlyA.loadFromDisk (some (snapshotText sampleEntries))
        = Outcome.ret true t' ∧
      t'.size = sampleEntries.length ∧ t'.maxSize = sampleOnlyA.maxSize ∧
      (sampleOnlyA.maxSize < (sampleEntries.length : Int) →
        t'.maxSize < (t'.size : Int)) :=
  ⟨rfl, by decide, by unfold newlineFree; decide, by decide, by decide,
    loadFromDisk_bypasses_capacity sampleOnlyA rfl sampleEntries (by decide)
      (by unfold newlineFree; decide) (by decide)⟩

/-- C19 (invariant after every successful load) evaluated on the code: loading the snapshot
"2\nk\nv1\nk\nv2\n", which lists the key "k" twice, into an empty store returns `true` and
leaves two nodes holding "k" in `usageOrder` for one entry in the index, so the invariant
fails and the length of `usageOrder` is not `size()`. -/
theorem loadFromDisk_duplicate_key_breaks_invariant :
    (KeyValueStore.new 5).loadFromDisk (some "2\nk\nv1\nk\nv2\n")
      = Outcome.ret true sampleDuplicate ∧
    sampleDuplicate.recency = ["k", "k"] ∧
    sampleDuplicate.size = 1 ∧
    sampleDuplicate.usageOrder.length = 2 ∧
    ¬ sampleDuplicate.Invariant :=
  ⟨rfl, by decide, by decide, by decide, fun h => absurd h.2.1 (by decide)⟩
